import Mathlib

/-!
Verification of the hopper task scheduler and execution engine.

The development shallowly embeds the queue module (task registry, task
order, folder lock table, scheduler enumeration) and the executor module
(executeTask, stopTask, isTaskRunning, the stream-draining loop) as pure
Lean functions over an explicit server state, together with a step
relation capturing the atomic units of the single-threaded event loop.
Timestamps are abstract naturals supplied as arguments; process exit
codes are integers supplied as arguments; the text streams are modelled
at the decoded-character level.
-/

namespace Hopper

/-! ## Definitions -/

/-- Task status enumeration: "queued" | "running" | "completed" | "error". -/
inductive TaskStatus where
  | queued
  | running
  | completed
  | error
deriving DecidableEq, Repr

/-- A task record, mirroring the Task interface of the source: id,
folderPath, agent, prompt, optional originalPrompt, status, the
terminalOutput line log, optional exitCode and the three timestamps. -/
structure Task where
  id : String
  folderPath : String
  agent : String
  prompt : String
  originalPrompt : Option String
  status : TaskStatus
  terminalOutput : List String
  exitCode : Option Int
  createdAt : Nat
  startedAt : Option Nat
  completedAt : Option Nat
deriving DecidableEq, Repr

/-- Reorder direction: "up" | "down". -/
inductive Direction where
  | up
  | down
deriving DecidableEq, Repr

/-! ### Association-list maps

JavaScript `Map` objects are modelled as association lists with
functional lookup; `mapSet` replaces the binding of an existing key in
place and appends a fresh key, `mapDelete` removes the key's binding. -/

/-- Lookup in an association list (Map.get). -/
def mapGet {α : Type} (m : List (String × α)) (k : String) : Option α :=
  match m with
  | [] => none
  | (k', v) :: rest => if k' = k then some v else mapGet rest k

/-- Insert or replace in an association list (Map.set). -/
def mapSet {α : Type} (m : List (String × α)) (k : String) (v : α) :
    List (String × α) :=
  match m with
  | [] => [(k, v)]
  | (k', v') :: rest =>
      if k' = k then (k, v) :: rest else (k', v') :: mapSet rest k v

/-- Delete from an association list (Map.delete). -/
def mapDelete {α : Type} (m : List (String × α)) (k : String) :
    List (String × α) :=
  match m with
  | [] => []
  | (k', v') :: rest =>
      if k' = k then rest else (k', v') :: mapDelete rest k

/-! ### Queue module

Embedding of the task registry, task order, and folder lock table.
The module-level mutable variables `tasks`, `taskOrder` and `folderLocks`
become the components of `QueueState`; each exported function becomes a
pure function on that state. -/

/-- The task map, task order and folder lock table owned by the queue
module, plus the executor's running-process map (keyed by task id) and
the set of suspended executeTask continuations (each capturing the
immutable id and folderPath of its task object), which share the same
single-threaded event loop. -/
structure ServerState where
  tasks : List (String × Task)
  taskOrder : List String
  folderLocks : List (String × String)
  runningProcesses : List String
  pendingExec : List (String × String)
deriving DecidableEq, Repr

/-- The empty initial state: no tasks, no locks, no processes. -/
def initState : ServerState :=
  { tasks := [], taskOrder := [], folderLocks := [],
    runningProcesses := [], pendingExec := [] }

/-- normalizePath: strip trailing slashes (the regex replace of
trailing "/"-runs by the empty string). -/
def normalizePath (p : String) : String :=
  ⟨(p.data.reverse.dropWhile (· = '/')).reverse⟩

/-- createTask: build a fresh queued task with normalized folder path and
empty output, insert it into the task map and append its id to the task
order.  The fresh id (crypto.randomUUID) and the creation timestamp
(Date.now) are passed explicitly. -/
def createTask (s : ServerState) (folderPath agent prompt : String)
    (originalPrompt : Option String) (id : String) (now : Nat) :
    ServerState × Task :=
  let task : Task :=
    { id := id
      folderPath := normalizePath folderPath
      agent := agent
      prompt := prompt
      originalPrompt := originalPrompt
      status := .queued
      terminalOutput := []
      exitCode := none
      createdAt := now
      startedAt := none
      completedAt := none }
  ({ s with tasks := mapSet s.tasks task.id task
            taskOrder := s.taskOrder ++ [task.id] }, task)

/-- getTask: lookup in the task map. -/
def getTask (s : ServerState) (taskId : String) : Option Task :=
  mapGet s.tasks taskId

/-- updateTask with a concrete field update `f`: Object.assign merges the
given partial fields into the stored task; absent ids are a no-op.  Each
call site of updateTask instantiates `f` with its literal update
object. -/
def updateTaskWith (s : ServerState) (taskId : String) (f : Task → Task) :
    ServerState :=
  match mapGet s.tasks taskId with
  | none => s
  | some t => { s with tasks := mapSet s.tasks taskId (f t) }

/-- removeTask: delete the task from map and order, first deleting the
folder-lock entry when this task is the current holder; returns whether
a task was found.  The running-process map is not touched. -/
def removeTask (s : ServerState) (taskId : String) : ServerState × Bool :=
  match mapGet s.tasks taskId with
  | none => (s, false)
  | some t =>
      let locks :=
        if mapGet s.folderLocks t.folderPath = some taskId then
          mapDelete s.folderLocks t.folderPath
        else s.folderLocks
      ({ s with folderLocks := locks
                tasks := mapDelete s.tasks taskId
                taskOrder := s.taskOrder.erase taskId }, true)

/-- reorderTask on the order list alone: locate the id (indexOf), fail on
an absent id or an out-of-range neighbour index, otherwise swap the two
adjacent positions. -/
def reorderList (order : List String) (taskId : String) (dir : Direction) :
    List String × Bool :=
  if taskId ∈ order then
    let index := order.indexOf taskId
    let newIndex := match dir with
      | .up => index - 1
      | .down => index + 1
    if (dir = .up ∧ index = 0) ∨ newIndex ≥ order.length then
      (order, false)
    else
      let a := order.getD index ""
      let b := order.getD newIndex ""
      ((order.set index b).set newIndex a, true)
  else (order, false)

/-- reorderTask lifted to the server state. -/
def reorderTask (s : ServerState) (taskId : String) (dir : Direction) :
    ServerState × Bool :=
  let r := reorderList s.taskOrder taskId dir
  ({ s with taskOrder := r.1 }, r.2)

/-- canStartTask: the folder is unlocked, or the lock is already held by
this very task. -/
def canStartTask (locks : List (String × String)) (t : Task) : Bool :=
  match mapGet locks t.folderPath with
  | none => true
  | some holder => holder = t.id

/-- acquireFolderLock: check canStartTask and, on success, install the
lock entry. -/
def acquireFolderLock (locks : List (String × String)) (t : Task) :
    List (String × String) × Bool :=
  if canStartTask locks t then (mapSet locks t.folderPath t.id, true)
  else (locks, false)

/-- releaseFolderLock: delete the lock entry only when it is currently
held by this task's id. -/
def releaseFolderLock (locks : List (String × String)) (t : Task) :
    List (String × String) :=
  if mapGet locks t.folderPath = some t.id then
    mapDelete locks t.folderPath
  else locks

/-- The loop body of getNextRunnableTasks: walk the task order, skip
missing or non-queued tasks, skip tasks whose folder cannot start or was
already selected this pass, otherwise select the task and mark its
folder. -/
def runnableGo (tasks : List (String × Task))
    (locks : List (String × String)) :
    List String → List String → List Task
  | [], _ => []
  | taskId :: rest, folders =>
      match mapGet tasks taskId with
      | none => runnableGo tasks locks rest folders
      | some t =>
          if t.status ≠ .queued then runnableGo tasks locks rest folders
          else if ¬ canStartTask locks t ∨ t.folderPath ∈ folders then
            runnableGo tasks locks rest folders
          else t :: runnableGo tasks locks rest (t.folderPath :: folders)

/-- getNextRunnableTasks: all queued tasks that can run in parallel in
this scheduling pass (at most one per folder, in task-order). -/
def getNextRunnableTasks (s : ServerState) : List Task :=
  runnableGo s.tasks s.folderLocks s.taskOrder []

/-! ### Executor module

executeTask runs synchronously from its call up to its first suspension
(reading the streams / awaiting process exit), so its code splits into
atomic units: `executeTaskStart` is the synchronous prefix (acquire the
lock, transition to running, resolve the command, spawn), and
`executeTaskFinish` is the continuation that runs when the process has
exited (cleanup, terminal transition).  Stream output lines arrive via
`emitOutput` while the continuation is pending. -/

/-- A resolved command: argument vector and working directory. -/
structure Command where
  cmd : List String
  cwd : String
deriving DecidableEq, Repr

/-- buildCommand: the pure mapping from agent kind to the spawned
command; "claude" and "codex" are the known kinds, anything else throws
(`none`).  The ambient process.cwd() is passed explicitly. -/
def buildCommand (processCwd : String) (t : Task) : Option Command :=
  if t.agent = "claude" then
    some { cmd := ["claude", "-p", t.prompt], cwd := t.folderPath }
  else if t.agent = "codex" then
    some { cmd := ["codex", "exec", "-C", t.folderPath, t.prompt],
           cwd := processCwd }
  else none

/-- How the synchronous prefix of executeTask ended. -/
inductive StartOutcome where
  | lockContention
  | configError
  | spawned
  | spawnFailed
deriving DecidableEq, Repr

/-- The catch block of executeTask: drop the running-process entry,
release the folder lock, append the diagnostic "[error] ..." line, and
set terminal error state with the -1 sentinel. -/
def execCatch (s : ServerState) (t : Task) (errorMessage : String)
    (now : Nat) : ServerState :=
  let s1 := { s with
    runningProcesses := s.runningProcesses.erase t.id
    folderLocks := releaseFolderLock s.folderLocks t }
  let s2 := updateTaskWith s1 t.id fun u =>
    { u with terminalOutput := u.terminalOutput ++ ["[error] " ++ errorMessage] }
  updateTaskWith s2 t.id fun u =>
    { u with status := .error, exitCode := some (-1), completedAt := some now }

/-- The synchronous prefix of executeTask: try to acquire the folder
lock (throwing on contention, before any mutation); transition the task
to running with startedAt; resolve the command via buildCommand (an
unknown agent throws here, after the transition); spawn the process
(`spawnOk` says whether Bun.spawn succeeds); on successful spawn record
the running process and the pending continuation, on spawn failure run
the catch block. -/
def executeTaskStart (s : ServerState) (t : Task) (processCwd : String)
    (spawnOk : Bool) (spawnErrorMessage : String) (now : Nat) :
    ServerState × StartOutcome :=
  let acq := acquireFolderLock s.folderLocks t
  if ¬ acq.2 then (s, .lockContention)
  else
    let s1 := { s with folderLocks := acq.1 }
    let s2 := updateTaskWith s1 t.id fun u =>
      { u with status := .running, startedAt := some now }
    match buildCommand processCwd t with
    | none => (s2, .configError)
    | some _ =>
        if spawnOk then
          ({ s2 with runningProcesses := s2.runningProcesses ++ [t.id]
                     pendingExec := s2.pendingExec ++ [(t.id, t.folderPath)] },
           .spawned)
        else (execCatch s2 t spawnErrorMessage now, .spawnFailed)

/-- A line arriving on one of the streams of a pending execution: the
captured task object's terminalOutput array is pushed to, which is
visible in the registry exactly when the task is still in the map. -/
def emitOutput (s : ServerState) (taskId : String) (line : String) :
    ServerState :=
  updateTaskWith s taskId fun u =>
    { u with terminalOutput := u.terminalOutput ++ [line] }

/-- The continuation of executeTask after `await proc.exited`: drop the
running-process entry, release the folder lock through the captured task
identity, and set the terminal state from the exit code (completed on 0,
error otherwise).  The pending continuation is consumed.  Note that no
check of the task's current status guards the terminal update. -/
def executeTaskFinish (s : ServerState) (taskId folderPath : String)
    (exitCode : Int) (now : Nat) : ServerState :=
  let s1 := { s with
    runningProcesses := s.runningProcesses.erase taskId
    folderLocks :=
      if mapGet s.folderLocks folderPath = some taskId then
        mapDelete s.folderLocks folderPath
      else s.folderLocks
    pendingExec := s.pendingExec.erase (taskId, folderPath) }
  updateTaskWith s1 taskId fun u =>
    { u with
        status := if exitCode = 0 then .completed else .error
        exitCode := some exitCode
        completedAt := some now }

/-- stopTask: absent running-process entry returns false with no
mutation; otherwise kill the process (its pending continuation will
still run when the killed process exits), drop the entry, and when the
task still exists release its folder lock, set terminal error state with
the -9 sentinel, and append the cancellation line. -/
def stopTask (s : ServerState) (taskId : String) (now : Nat) :
    ServerState × Bool :=
  if taskId ∈ s.runningProcesses then
    let s1 := { s with runningProcesses := s.runningProcesses.erase taskId }
    match mapGet s1.tasks taskId with
    | none => (s1, true)
    | some t =>
        let s2 := { s1 with folderLocks := releaseFolderLock s1.folderLocks t }
        let s3 := updateTaskWith s2 taskId fun u =>
          { u with status := .error, exitCode := some (-9),
                   completedAt := some now }
        let s4 := updateTaskWith s3 taskId fun u =>
          { u with terminalOutput :=
              u.terminalOutput ++ ["[system] Task stopped by user"] }
        (s4, true)
  else (s, false)

/-- isTaskRunning: membership in the running-process map. -/
def isTaskRunning (s : ServerState) (taskId : String) : Bool :=
  taskId ∈ s.runningProcesses

/-! ### The event-loop step relation

Each constructor is one atomic unit of the single-threaded event loop:
task creation, the synchronous prefix of executeTask on a queued task
(as dispatched by the scheduler), an output line of a pending execution,
the completion continuation of a pending execution, stopTask,
removeTask, and reorderTask.  Fresh ids (crypto.randomUUID) never
collide with any id in use. -/

inductive Step : ServerState → ServerState → Prop where
  | create (s : ServerState) (folderPath agent prompt : String)
      (originalPrompt : Option String) (id : String) (now : Nat)
      (hfresh : mapGet s.tasks id = none)
      (hfresh2 : id ∉ s.pendingExec.map Prod.fst)
      (hfresh3 : id ∉ s.runningProcesses) :
      Step s (createTask s folderPath agent prompt originalPrompt id now).1
  | start (s : ServerState) (tid : String) (t : Task)
      (processCwd spawnErrorMessage : String) (spawnOk : Bool) (now : Nat)
      (hget : mapGet s.tasks tid = some t) (hq : t.status = .queued) :
      Step s (executeTaskStart s t processCwd spawnOk spawnErrorMessage now).1
  | emit (s : ServerState) (tid fp line : String)
      (hpend : (tid, fp) ∈ s.pendingExec) :
      Step s (emitOutput s tid line)
  | finish (s : ServerState) (tid fp : String) (exitCode : Int) (now : Nat)
      (hpend : (tid, fp) ∈ s.pendingExec) :
      Step s (executeTaskFinish s tid fp exitCode now)
  | stop (s : ServerState) (tid : String) (now : Nat) :
      Step s (stopTask s tid now).1
  | remove (s : ServerState) (tid : String) :
      Step s (removeTask s tid).1
  | reorder (s : ServerState) (tid : String) (dir : Direction) :
      Step s (reorderTask s tid dir).1

/-- States reachable from the empty initial state by event-loop steps. -/
inductive Reachable : ServerState → Prop where
  | init : Reachable initState
  | step {s s' : ServerState} : Reachable s → Step s s' → Reachable s'

/-! ### The folder-lock invariant -/

/-- Task-map keys agree with the stored task's id field. -/
def KeyInv (s : ServerState) : Prop :=
  ∀ tid t, mapGet s.tasks tid = some t → t.id = tid

/-- Every folder-lock entry names a task of the registry whose
folderPath is that folder and whose status is running. -/
def LockConsistent (s : ServerState) : Prop :=
  ∀ p tid, mapGet s.folderLocks p = some tid →
    ∃ t, mapGet s.tasks tid = some t ∧ t.folderPath = p ∧
      t.status = .running

/-- Every running task of the registry holds the lock of its folder. -/
def RunningLocked (s : ServerState) : Prop :=
  ∀ tid t, mapGet s.tasks tid = some t → t.status = .running →
    mapGet s.folderLocks t.folderPath = some tid

/-- Every pending execution continuation captured the folderPath of the
task it runs, as long as the task is still registered. -/
def CtxConsistent (s : ServerState) : Prop :=
  ∀ tid fp, (tid, fp) ∈ s.pendingExec →
    ∀ t, mapGet s.tasks tid = some t → t.folderPath = fp

/-- The inductive invariant of the event loop. -/
def Inv (s : ServerState) : Prop :=
  KeyInv s ∧ (s.tasks.map Prod.fst).Nodup ∧
    (s.folderLocks.map Prod.fst).Nodup ∧ LockConsistent s ∧
    RunningLocked s ∧ CtxConsistent s

/-! ### Characterizations of executeTaskStart -/

/-- The state after the lock acquisition and running transition of
executeTask. -/
def startedState (s : ServerState) (t : Task) (now : Nat) : ServerState :=
  updateTaskWith
    { s with folderLocks := mapSet s.folderLocks t.folderPath t.id }
    t.id fun u =>
      { u with status := TaskStatus.running, startedAt := some now }

/-! ### The stream-draining routine (readStream)

The decoded text of one stream is modelled as a list of characters, a
delivery as an arbitrary chunking of that text.  readStream keeps the
text after the last newline in a buffer, emits every complete line as it
is cut (with the stream's marker applied), and flushes a non-empty
buffer when the stream closes. -/

/-- JavaScript String.split on the newline character. -/
def splitNL : List Char → List (List Char)
  | [] => [[]]
  | c :: rest =>
      if c = '\n' then [] :: splitNL rest
      else
        match splitNL rest with
        | [] => [[c]]
        | seg :: segs => (c :: seg) :: segs

/-- The marker application: an empty marker is falsy in JS, so the line
passes through unchanged; otherwise the marker is prepended. -/
def applyStreamTag (tag line : List Char) : List Char :=
  if tag = [] then line else tag ++ line

/-- The loop of readStream: append the incoming chunk to the buffer,
split on newlines, keep the last (incomplete) segment as the new buffer,
emit the complete segments; at end of stream flush a non-empty
buffer. -/
def readStreamGo (tag : List Char) (buffer : List Char) :
    List (List Char) → List (List Char)
  | [] => if buffer = [] then [] else [applyStreamTag tag buffer]
  | chunk :: rest =>
      let lines := splitNL (buffer ++ chunk)
      lines.dropLast.map (applyStreamTag tag) ++
        readStreamGo tag (lines.getLastD []) rest

/-- The complete lines emitted by readStream for a chunked stream. -/
def readStreamLines (tag : List Char) (chunks : List (List Char)) :
    List (List Char) :=
  readStreamGo tag [] chunks

/-- Specification side: the newline-separated segments of the whole
text, with the empty segment after a trailing newline (or of an empty
text) not emitted, and a non-empty trailing partial line kept. -/
def expectedSegs (s : List Char) : List (List Char) :=
  if (splitNL s).getLastD [] = [] then (splitNL s).dropLast else splitNL s

/-! ### Characterization of reorderTask -/

/-- Swap of the adjacent positions i and i+1 of a list. -/
def adjSwap (l : List String) (i : Nat) : List String :=
  (l.set i (l.getD (i + 1) "")).set (i + 1) (l.getD i "")

/-! ### Concrete states used to instantiate the theorems -/

/-- One task created in folder "/f". -/
def demoCreated : ServerState :=
  (createTask initState "/f" "claude" "p" none "A" 0).1

/-- The created task record. -/
def demoTask : Task :=
  (createTask initState "/f" "claude" "p" none "A" 0).2

/-- The state after the scheduler dispatched the task and the spawn
succeeded: the task is running, holds the folder lock, has a
running-process entry and a pending completion continuation. -/
def demoStarted : ServerState :=
  (executeTaskStart demoCreated demoTask "/" true "" 1).1

/-- The running task record inside demoStarted. -/
def demoRunningTask : Task :=
  { id := "A", folderPath := "/f", agent := "claude", prompt := "p",
    originalPrompt := none, status := TaskStatus.running,
    terminalOutput := [], exitCode := none, createdAt := 0,
    startedAt := some 1, completedAt := none }

/-- A queued task whose agent kind resolves to no command. -/
def badAgentState : ServerState :=
  (createTask initState "/w" "gpt" "do" none "B" 0).1

/-- The task record with the unresolvable agent kind. -/
def badAgentTask : Task :=
  (createTask initState "/w" "gpt" "do" none "B" 0).2

/-- A queued task "t1" in folder "/f". -/
def cxTask1 : Task :=
  { id := "t1", folderPath := "/f", agent := "claude", prompt := "x",
    originalPrompt := none, status := TaskStatus.queued,
    terminalOutput := [], exitCode := none, createdAt := 0,
    startedAt := none, completedAt := none }

/-- A queued task "t2" in the same folder "/f". -/
def cxTask2 : Task :=
  { id := "t2", folderPath := "/f", agent := "claude", prompt := "y",
    originalPrompt := none, status := TaskStatus.queued,
    terminalOutput := [], exitCode := none, createdAt := 0,
    startedAt := none, completedAt := none }

/-- A lock-table state (not reachable: the lock holder is queued) on
which the scheduler pass violates per-folder FIFO. -/
def cxSchedState : ServerState :=
  { tasks := [("t1", cxTask1), ("t2", cxTask2)],
    taskOrder := ["t1", "t2"], folderLocks := [("/f", "t2")],
    runningProcesses := [], pendingExec := [] }

/-- A single-queued-task state with an empty lock table, for
instantiating the amended C4 statement. -/
def gsState : ServerState :=
  { tasks := [("t1", cxTask1)], taskOrder := ["t1"], folderLocks := [],
    runningProcesses := [], pendingExec := [] }

/-! ## Theorems -/

theorem mapGet_mapSet_self {α : Type} (m : List (String × α)) (k : String)
    (v : α) : mapGet (mapSet m k v) k = some v := by
  induction m with
  | nil => simp [mapSet, mapGet]
  | cons hd tl ih =>
      obtain ⟨k', v'⟩ := hd
      by_cases h : k' = k <;> simp [mapSet, mapGet, h, ih]

theorem mapGet_mapSet_ne {α : Type} (m : List (String × α)) (k k' : String)
    (v : α) (h : k ≠ k') : mapGet (mapSet m k v) k' = mapGet m k' := by
  induction m with
  | nil => simp [mapSet, mapGet, h]
  | cons hd tl ih =>
      obtain ⟨k0, v0⟩ := hd
      by_cases h0 : k0 = k
      · subst h0
        simp [mapSet, mapGet, h]
      · simp [mapSet, h0, mapGet]
        by_cases h1 : k0 = k' <;> simp [h1, ih]

theorem mapGet_mapDelete_self {α : Type} (m : List (String × α)) (k : String)
    (hnd : (m.map Prod.fst).Nodup) : mapGet (mapDelete m k) k = none := by
  induction m with
  | nil => simp [mapDelete, mapGet]
  | cons hd tl ih =>
      obtain ⟨k', v'⟩ := hd
      simp only [List.map_cons, List.nodup_cons] at hnd
      by_cases h : k' = k
      · subst h
        simp only [mapDelete, if_pos rfl]
        -- k no longer occurs among the keys of tl
        clear ih
        induction tl with
        | nil => simp [mapGet]
        | cons hd2 tl2 ih2 =>
            obtain ⟨k2, v2⟩ := hd2
            simp only [List.map_cons, List.mem_cons, List.nodup_cons] at hnd
            have hk2 : k2 ≠ k' := fun h => hnd.1 (Or.inl h.symm)
            simp only [mapGet, if_neg hk2]
            exact ih2 ⟨fun hm => hnd.1 (Or.inr hm), hnd.2.2⟩
      · simp [mapDelete, h, mapGet, ih hnd.2]

theorem mapGet_mapDelete_ne {α : Type} (m : List (String × α)) (k k' : String)
    (h : k ≠ k') : mapGet (mapDelete m k) k' = mapGet m k' := by
  induction m with
  | nil => simp [mapDelete, mapGet]
  | cons hd tl ih =>
      obtain ⟨k0, v0⟩ := hd
      by_cases h0 : k0 = k
      · subst h0
        have hne : k0 ≠ k' := h
        simp [mapDelete, mapGet, hne]
      · simp [mapDelete, h0, mapGet, ih]

theorem mapSet_keys_mem {α : Type} (m : List (String × α)) (k l : String)
    (v : α) (hmem : l ∈ (mapSet m k v).map Prod.fst) :
    l ∈ m.map Prod.fst ∨ l = k := by
  induction m with
  | nil =>
      simp only [mapSet, List.map_cons, List.map_nil, List.mem_singleton]
        at hmem
      exact Or.inr hmem
  | cons hd tl ih =>
      obtain ⟨k0, v0⟩ := hd
      by_cases h0 : k0 = k <;>
        simp only [mapSet, h0, if_true, if_false, List.map_cons,
          List.mem_cons] at hmem <;> simp only [List.map_cons, List.mem_cons]
      · tauto
      · rcases hmem with h1 | h1
        · tauto
        · rcases ih h1 with h2 | h2 <;> tauto

theorem mapDelete_keys_mem {α : Type} (m : List (String × α)) (k l : String)
    (hmem : l ∈ (mapDelete m k).map Prod.fst) : l ∈ m.map Prod.fst := by
  induction m with
  | nil => simp [mapDelete] at hmem
  | cons hd tl ih =>
      obtain ⟨k0, v0⟩ := hd
      by_cases h0 : k0 = k <;>
        simp only [mapDelete, h0, if_true, if_false, List.map_cons,
          List.mem_cons] at hmem ⊢
      · tauto
      · rcases hmem with h1 | h1
        · tauto
        · exact Or.inr (ih h1)

theorem mapSet_keys_nodup {α : Type} (m : List (String × α)) (k : String)
    (v : α) (hnd : (m.map Prod.fst).Nodup) :
    ((mapSet m k v).map Prod.fst).Nodup := by
  induction m with
  | nil => simp [mapSet]
  | cons hd tl ih =>
      obtain ⟨k0, v0⟩ := hd
      simp only [List.map_cons, List.nodup_cons] at hnd
      by_cases h0 : k0 = k <;>
        simp only [mapSet, h0, if_true, if_false, List.map_cons,
          List.nodup_cons]
      · exact ⟨by simpa [h0] using hnd.1, hnd.2⟩
      · refine ⟨?_, ih hnd.2⟩
        intro hmem
        rcases mapSet_keys_mem tl k k0 v hmem with h1 | h1
        · exact hnd.1 h1
        · exact h0 h1

theorem mapDelete_keys_nodup {α : Type} (m : List (String × α)) (k : String)
    (hnd : (m.map Prod.fst).Nodup) :
    ((mapDelete m k).map Prod.fst).Nodup := by
  induction m with
  | nil => simp [mapDelete]
  | cons hd tl ih =>
      obtain ⟨k0, v0⟩ := hd
      simp only [List.map_cons, List.nodup_cons] at hnd
      by_cases h0 : k0 = k <;>
        simp only [mapDelete, h0, if_true, if_false, List.map_cons,
          List.nodup_cons]
      · exact hnd.2
      · exact ⟨fun hmem => hnd.1 (mapDelete_keys_mem tl k k0 hmem),
          ih hnd.2⟩

/-! ### Helper lemmas about updateTaskWith -/

theorem updateTaskWith_folderLocks (s : ServerState) (tid : String)
    (f : Task → Task) :
    (updateTaskWith s tid f).folderLocks = s.folderLocks := by
  unfold updateTaskWith
  cases mapGet s.tasks tid <;> rfl

theorem updateTaskWith_taskOrder (s : ServerState) (tid : String)
    (f : Task → Task) :
    (updateTaskWith s tid f).taskOrder = s.taskOrder := by
  unfold updateTaskWith
  cases mapGet s.tasks tid <;> rfl

theorem updateTaskWith_runningProcesses (s : ServerState) (tid : String)
    (f : Task → Task) :
    (updateTaskWith s tid f).runningProcesses = s.runningProcesses := by
  unfold updateTaskWith
  cases mapGet s.tasks tid <;> rfl

theorem updateTaskWith_pendingExec (s : ServerState) (tid : String)
    (f : Task → Task) :
    (updateTaskWith s tid f).pendingExec = s.pendingExec := by
  unfold updateTaskWith
  cases mapGet s.tasks tid <;> rfl

theorem mapGet_updateTaskWith (s : ServerState) (tid : String)
    (f : Task → Task) (tid' : String) :
    mapGet (updateTaskWith s tid f).tasks tid' =
      if tid = tid' then (mapGet s.tasks tid).map f
      else mapGet s.tasks tid' := by
  unfold updateTaskWith
  rcases hg : mapGet s.tasks tid with _ | t
  · by_cases h : tid = tid'
    · subst h
      simp [hg]
    · simp [h]
  · by_cases h : tid = tid'
    · subst h
      simp [mapGet_mapSet_self, hg]
    · simp [h, mapGet_mapSet_ne s.tasks tid tid' (f t) h]

theorem updateTaskWith_keys_nodup (s : ServerState) (tid : String)
    (f : Task → Task) (hnd : (s.tasks.map Prod.fst).Nodup) :
    ((updateTaskWith s tid f).tasks.map Prod.fst).Nodup := by
  unfold updateTaskWith
  cases mapGet s.tasks tid
  · exact hnd
  · exact mapSet_keys_nodup _ _ _ hnd

/-! ### Preservation of the invariant by each step -/

theorem inv_create (s : ServerState) (folderPath agent prompt : String)
    (originalPrompt : Option String) (id : String) (now : Nat)
    (hinv : Inv s) (hfresh : mapGet s.tasks id = none)
    (hfresh2 : id ∉ s.pendingExec.map Prod.fst) :
    Inv (createTask s folderPath agent prompt originalPrompt id now).1 := by
  obtain ⟨hKey, hTN, hLN, hLC, hRL, hCtx⟩ := hinv
  unfold createTask
  refine ⟨?_, ?_, ?_, ?_, ?_, ?_⟩
  · intro tid t hget
    by_cases h : id = tid
    · subst h
      rw [mapGet_mapSet_self] at hget
      cases hget
      rfl
    · rw [mapGet_mapSet_ne _ _ _ _ h] at hget
      exact hKey tid t hget
  · exact mapSet_keys_nodup _ _ _ hTN
  · exact hLN
  · intro p tid hlock
    obtain ⟨t, hget, hfp, hst⟩ := hLC p tid hlock
    refine ⟨t, ?_, hfp, hst⟩
    have h : id ≠ tid := fun h => by
      subst h
      rw [hfresh] at hget
      cases hget
    rwa [mapGet_mapSet_ne _ _ _ _ h]
  · intro tid t hget hst
    by_cases h : id = tid
    · subst h
      rw [mapGet_mapSet_self] at hget
      cases hget
      cases hst
    · rw [mapGet_mapSet_ne _ _ _ _ h] at hget
      exact hRL tid t hget hst
  · intro tid fp hpend t hget
    have h : id ≠ tid := fun h => by
      subst h
      exact hfresh2 (List.mem_map.mpr ⟨(id, fp), hpend, rfl⟩)
    rw [mapGet_mapSet_ne _ _ _ _ h] at hget
    exact hCtx tid fp hpend t hget

theorem inv_emit (s : ServerState) (tid line : String) (hinv : Inv s) :
    Inv (emitOutput s tid line) := by
  obtain ⟨hKey, hTN, hLN, hLC, hRL, hCtx⟩ := hinv
  unfold emitOutput
  refine ⟨?_, updateTaskWith_keys_nodup _ _ _ hTN, ?_, ?_, ?_, ?_⟩
  · intro tid' t hget
    rw [mapGet_updateTaskWith] at hget
    by_cases h : tid = tid'
    · subst h
      rw [if_pos rfl] at hget
      rcases hu : mapGet s.tasks tid with _ | u
      · rw [hu] at hget
        cases hget
      · rw [hu] at hget
        cases hget
        exact hKey tid u hu
    · rw [if_neg h] at hget
      exact hKey tid' t hget
  · rw [updateTaskWith_folderLocks]
    exact hLN
  · intro p tid' hlock
    rw [updateTaskWith_folderLocks] at hlock
    obtain ⟨t, hget, hfp, hst⟩ := hLC p tid' hlock
    rw [mapGet_updateTaskWith]
    by_cases h : tid = tid'
    · subst h
      rw [if_pos rfl, hget]
      exact ⟨_, rfl, hfp, hst⟩
    · rw [if_neg h]
      exact ⟨t, hget, hfp, hst⟩
  · intro tid' t hget hst
    rw [updateTaskWith_folderLocks]
    rw [mapGet_updateTaskWith] at hget
    by_cases h : tid = tid'
    · subst h
      rw [if_pos rfl] at hget
      rcases hu : mapGet s.tasks tid with _ | u
      · rw [hu] at hget
        cases hget
      · rw [hu] at hget
        cases hget
        exact hRL tid u hu hst
    · rw [if_neg h] at hget
      exact hRL tid' t hget hst
  · intro tid' fp hpend t hget
    rw [updateTaskWith_pendingExec] at hpend
    rw [mapGet_updateTaskWith] at hget
    by_cases h : tid = tid'
    · subst h
      rw [if_pos rfl] at hget
      rcases hu : mapGet s.tasks tid with _ | u
      · rw [hu] at hget
        cases hget
      · rw [hu] at hget
        cases hget
        exact hCtx tid fp hpend u hu
    · rw [if_neg h] at hget
      exact hCtx tid' fp hpend t hget

theorem inv_reorder (s : ServerState) (tid : String) (dir : Direction)
    (hinv : Inv s) : Inv (reorderTask s tid dir).1 := by
  obtain ⟨hKey, hTN, hLN, hLC, hRL, hCtx⟩ := hinv
  exact ⟨hKey, hTN, hLN, hLC, hRL, hCtx⟩

theorem mapSet_mapSet {α : Type} (m : List (String × α)) (k : String)
    (v v' : α) : mapSet (mapSet m k v) k v' = mapSet m k v' := by
  induction m with
  | nil => simp [mapSet]
  | cons hd tl ih =>
      obtain ⟨k0, v0⟩ := hd
      by_cases h0 : k0 = k
      · subst h0
        simp [mapSet]
      · simp [mapSet, h0, ih]

theorem updateTaskWith_comp (s : ServerState) (tid : String)
    (f g : Task → Task) :
    updateTaskWith (updateTaskWith s tid f) tid g =
      updateTaskWith s tid (fun u => g (f u)) := by
  unfold updateTaskWith
  rcases hg : mapGet s.tasks tid with _ | t
  · simp [hg]
  · simp only [hg, mapGet_mapSet_self]
    simp [mapSet_mapSet]

/-- Workhorse: conditionally releasing the folder lock `fp` held by
`tid` while updating task `tid` with a function that preserves id and
folderPath and leaves the task non-running preserves the invariant,
for any shrinking of the pending-execution list and any
running-process list. -/
theorem inv_release_update (s : ServerState) (tid fp : String)
    (rp : List String) (pe : List (String × String)) (f : Task → Task)
    (hpe : ∀ x, x ∈ pe → x ∈ s.pendingExec)
    (hfp : ∀ u, mapGet s.tasks tid = some u → u.folderPath = fp)
    (hid : ∀ u, (f u).id = u.id)
    (hfpf : ∀ u, (f u).folderPath = u.folderPath)
    (hnr : ∀ u, (f u).status ≠ .running)
    (hinv : Inv s) :
    Inv (updateTaskWith
      { s with
          folderLocks :=
            if mapGet s.folderLocks fp = some tid then
              mapDelete s.folderLocks fp
            else s.folderLocks
          runningProcesses := rp
          pendingExec := pe } tid f) := by
  obtain ⟨hKey, hTN, hLN, hLC, hRL, hCtx⟩ := hinv
  refine ⟨?_, updateTaskWith_keys_nodup _ _ _ hTN, ?_, ?_, ?_, ?_⟩
  · -- KeyInv
    intro tid' t hget
    rw [mapGet_updateTaskWith] at hget
    dsimp only at hget
    by_cases h : tid = tid'
    · subst h
      rw [if_pos rfl] at hget
      rcases hu : mapGet s.tasks tid with _ | u
      · rw [hu] at hget
        cases hget
      · rw [hu] at hget
        cases hget
        rw [hid u]
        exact hKey tid u hu
    · rw [if_neg h] at hget
      exact hKey tid' t hget
  · rw [updateTaskWith_folderLocks]
    dsimp only
    split
    · exact mapDelete_keys_nodup _ _ hLN
    · exact hLN
  · -- LockConsistent
    intro p tid' hlock
    rw [updateTaskWith_folderLocks] at hlock
    dsimp only at hlock
    have hmain : mapGet s.folderLocks p = some tid' ∧ tid' ≠ tid := by
      by_cases hc : mapGet s.folderLocks fp = some tid
      · rw [if_pos hc] at hlock
        have hpfp : p ≠ fp := by
          intro hp
          subst hp
          rw [mapGet_mapDelete_self _ _ hLN] at hlock
          cases hlock
        rw [mapGet_mapDelete_ne _ _ _ (Ne.symm hpfp)] at hlock
        refine ⟨hlock, ?_⟩
        intro h
        subst h
        obtain ⟨u, hu, hufp, hurun⟩ := hLC p tid' hlock
        exact hpfp (by rw [← hufp, hfp u hu])
      · rw [if_neg hc] at hlock
        refine ⟨hlock, ?_⟩
        intro h
        subst h
        obtain ⟨u, hu, hufp, hurun⟩ := hLC p tid' hlock
        apply hc
        rw [← hfp u hu, hufp]
        exact hlock
    obtain ⟨hlock', htid'⟩ := hmain
    obtain ⟨u, hu, hufp, hurun⟩ := hLC p tid' hlock'
    refine ⟨u, ?_, hufp, hurun⟩
    rw [mapGet_updateTaskWith, if_neg (Ne.symm htid')]
    exact hu
  · -- RunningLocked
    intro tid' t hget hrun
    rw [updateTaskWith_folderLocks]
    rw [mapGet_updateTaskWith] at hget
    dsimp only at hget ⊢
    by_cases h : tid = tid'
    · subst h
      rw [if_pos rfl] at hget
      rcases hu : mapGet s.tasks tid with _ | u
      · rw [hu] at hget
        cases hget
      · rw [hu] at hget
        cases hget
        exact absurd hrun (hnr u)
    · rw [if_neg h] at hget
      have hold := hRL tid' t hget hrun
      by_cases hc : mapGet s.folderLocks fp = some tid
      · have htfp : t.folderPath ≠ fp := by
          intro hp
          rw [hp] at hold
          rw [hold] at hc
          cases hc
          exact h rfl
        rw [if_pos hc, mapGet_mapDelete_ne _ _ _ (Ne.symm htfp)]
        exact hold
      · rw [if_neg hc]
        exact hold
  · -- CtxConsistent
    intro tid' fp' hpend t hget
    rw [updateTaskWith_pendingExec] at hpend
    dsimp only at hpend
    have hpend' := hpe _ hpend
    rw [mapGet_updateTaskWith] at hget
    dsimp only at hget
    by_cases h : tid = tid'
    · subst h
      rw [if_pos rfl] at hget
      rcases hu : mapGet s.tasks tid with _ | u
      · rw [hu] at hget
        cases hget
      · rw [hu] at hget
        cases hget
        rw [hfpf u]
        exact hCtx tid fp' hpend' u hu
    · rw [if_neg h] at hget
      exact hCtx tid' fp' hpend' t hget

theorem inv_finish (s : ServerState) (tid fp : String) (exitCode : Int)
    (now : Nat) (hpend : (tid, fp) ∈ s.pendingExec) (hinv : Inv s) :
    Inv (executeTaskFinish s tid fp exitCode now) := by
  have hfp : ∀ u, mapGet s.tasks tid = some u → u.folderPath = fp :=
    fun u hu => hinv.2.2.2.2.2 tid fp hpend u hu
  exact inv_release_update s tid fp (s.runningProcesses.erase tid)
    (s.pendingExec.erase (tid, fp))
    (fun u => { u with
        status := if exitCode = 0 then .completed else .error
        exitCode := some exitCode
        completedAt := some now })
    (fun x hx => List.mem_of_mem_erase hx) hfp
    (fun u => rfl) (fun u => rfl)
    (fun u => by dsimp only; split <;> intro hcon <;> cases hcon)
    hinv

/-- stopTask on a task id with no running-process entry returns false
and leaves the entire state untouched. -/
theorem stopTask_not_running (s : ServerState) (tid : String) (now : Nat)
    (hmem : tid ∉ s.runningProcesses) : stopTask s tid now = (s, false) := by
  unfold stopTask
  rw [if_neg hmem]

/-- Characterization of stopTask on a running-process entry whose task
is still registered: the two sequential task updates collapse into one
record update. -/
theorem stopTask_running_some (s : ServerState) (tid : String) (now : Nat)
    (t : Task) (hmem : tid ∈ s.runningProcesses)
    (hg : mapGet s.tasks tid = some t) :
    stopTask s tid now =
      (updateTaskWith
        { s with
            runningProcesses := s.runningProcesses.erase tid
            folderLocks := releaseFolderLock s.folderLocks t } tid
        (fun u => { u with
            status := TaskStatus.error
            exitCode := some (-9)
            completedAt := some now
            terminalOutput :=
              u.terminalOutput ++ ["[system] Task stopped by user"] }),
       true) := by
  unfold stopTask
  rw [if_pos hmem]
  dsimp only
  rw [hg]
  dsimp only
  rw [updateTaskWith_comp]

/-- Characterization of stopTask on a running-process entry whose task
has already been removed from the registry. -/
theorem stopTask_running_none (s : ServerState) (tid : String) (now : Nat)
    (hmem : tid ∈ s.runningProcesses)
    (hg : mapGet s.tasks tid = none) :
    stopTask s tid now =
      ({ s with runningProcesses := s.runningProcesses.erase tid }, true) := by
  unfold stopTask
  rw [if_pos hmem]
  dsimp only
  rw [hg]

theorem inv_stop (s : ServerState) (tid : String) (now : Nat)
    (hinv : Inv s) : Inv (stopTask s tid now).1 := by
  by_cases hmem : tid ∈ s.runningProcesses
  · rcases hg : mapGet s.tasks tid with _ | t
    · rw [stopTask_running_none s tid now hmem hg]
      obtain ⟨hKey, hTN, hLN, hLC, hRL, hCtx⟩ := hinv
      exact ⟨hKey, hTN, hLN, hLC, hRL, hCtx⟩
    · rw [stopTask_running_some s tid now t hmem hg]
      have htid : t.id = tid := hinv.1 tid t hg
      show Inv (updateTaskWith _ tid _)
      unfold releaseFolderLock
      rw [htid]
      exact inv_release_update s tid t.folderPath
        (s.runningProcesses.erase tid) s.pendingExec
        (fun u => { u with
            status := TaskStatus.error
            exitCode := some (-9)
            completedAt := some now
            terminalOutput :=
              u.terminalOutput ++ ["[system] Task stopped by user"] })
        (fun x hx => hx)
        (fun u hu => by rw [hg] at hu; cases hu; rfl)
        (fun u => rfl) (fun u => rfl)
        (fun u hcon => by cases hcon)
        hinv
  · rw [stopTask_not_running s tid now hmem]
    exact hinv

theorem inv_remove (s : ServerState) (tid : String) (hinv : Inv s) :
    Inv (removeTask s tid).1 := by
  obtain ⟨hKey, hTN, hLN, hLC, hRL, hCtx⟩ := hinv
  unfold removeTask
  rcases hg : mapGet s.tasks tid with _ | t
  · exact ⟨hKey, hTN, hLN, hLC, hRL, hCtx⟩
  · dsimp only
    refine ⟨?_, mapDelete_keys_nodup _ _ hTN, ?_, ?_, ?_, ?_⟩
    · -- KeyInv
      intro tid' u hget
      by_cases h : tid = tid'
      · subst h
        rw [mapGet_mapDelete_self _ _ hTN] at hget
        cases hget
      · rw [mapGet_mapDelete_ne _ _ _ h] at hget
        exact hKey tid' u hget
    · -- lock keys nodup
      split
      · exact mapDelete_keys_nodup _ _ hLN
      · exact hLN
    · -- LockConsistent
      intro p h hlock
      have hmain : mapGet s.folderLocks p = some h ∧ h ≠ tid := by
        by_cases hc : mapGet s.folderLocks t.folderPath = some tid
        · rw [if_pos hc] at hlock
          have hpfp : p ≠ t.folderPath := by
            intro hp
            subst hp
            rw [mapGet_mapDelete_self _ _ hLN] at hlock
            cases hlock
          rw [mapGet_mapDelete_ne _ _ _ (Ne.symm hpfp)] at hlock
          refine ⟨hlock, ?_⟩
          intro hh
          subst hh
          obtain ⟨u, hu, hufp, hurun⟩ := hLC p h hlock
          rw [hg] at hu
          cases hu
          exact hpfp hufp.symm
        · rw [if_neg hc] at hlock
          refine ⟨hlock, ?_⟩
          intro hh
          subst hh
          obtain ⟨u, hu, hufp, hurun⟩ := hLC p h hlock
          rw [hg] at hu
          cases hu
          apply hc
          rw [hufp]
          exact hlock
      obtain ⟨hlock', hh⟩ := hmain
      obtain ⟨u, hu, hufp, hurun⟩ := hLC p h hlock'
      refine ⟨u, ?_, hufp, hurun⟩
      rw [mapGet_mapDelete_ne _ _ _ (Ne.symm hh)]
      exact hu
    · -- RunningLocked
      intro tid' u hget hrun
      by_cases h : tid = tid'
      · subst h
        rw [mapGet_mapDelete_self _ _ hTN] at hget
        cases hget
      · rw [mapGet_mapDelete_ne _ _ _ h] at hget
        have hold := hRL tid' u hget hrun
        by_cases hc : mapGet s.folderLocks t.folderPath = some tid
        · have hufp : u.folderPath ≠ t.folderPath := by
            intro hp
            rw [hp] at hold
            rw [hold] at hc
            cases hc
            exact h rfl
          rw [if_pos hc, mapGet_mapDelete_ne _ _ _ (Ne.symm hufp)]
          exact hold
        · rw [if_neg hc]
          exact hold
    · -- CtxConsistent
      intro tid' fp hpend u hget
      by_cases h : tid = tid'
      · subst h
        rw [mapGet_mapDelete_self _ _ hTN] at hget
        cases hget
      · rw [mapGet_mapDelete_ne _ _ _ h] at hget
        exact hCtx tid' fp hpend u hget

theorem executeTaskStart_contention (s : ServerState) (t : Task)
    (processCwd spawnErrorMessage : String) (spawnOk : Bool) (now : Nat)
    (hcs : canStartTask s.folderLocks t = false) :
    executeTaskStart s t processCwd spawnOk spawnErrorMessage now =
      (s, .lockContention) := by
  simp [executeTaskStart, acquireFolderLock, hcs]

theorem executeTaskStart_configError (s : ServerState) (t : Task)
    (processCwd spawnErrorMessage : String) (spawnOk : Bool) (now : Nat)
    (hcs : canStartTask s.folderLocks t = true)
    (hbc : buildCommand processCwd t = none) :
    executeTaskStart s t processCwd spawnOk spawnErrorMessage now =
      (startedState s t now, .configError) := by
  simp [executeTaskStart, acquireFolderLock, hcs, hbc, startedState]

theorem executeTaskStart_spawned (s : ServerState) (t : Task)
    (processCwd spawnErrorMessage : String) (now : Nat) (c : Command)
    (hcs : canStartTask s.folderLocks t = true)
    (hbc : buildCommand processCwd t = some c) :
    executeTaskStart s t processCwd true spawnErrorMessage now =
      ({ startedState s t now with
          runningProcesses := (startedState s t now).runningProcesses ++ [t.id]
          pendingExec :=
            (startedState s t now).pendingExec ++ [(t.id, t.folderPath)] },
       .spawned) := by
  simp [executeTaskStart, acquireFolderLock, hcs, hbc, startedState]

theorem executeTaskStart_spawnFailed (s : ServerState) (t : Task)
    (processCwd spawnErrorMessage : String) (now : Nat) (c : Command)
    (hcs : canStartTask s.folderLocks t = true)
    (hbc : buildCommand processCwd t = some c) :
    executeTaskStart s t processCwd false spawnErrorMessage now =
      (execCatch (startedState s t now) t spawnErrorMessage now,
       .spawnFailed) := by
  simp [executeTaskStart, acquireFolderLock, hcs, hbc, startedState]

/-- Acquiring a free folder lock while transitioning its task to running
preserves the invariant. -/
theorem inv_acquire_run (s : ServerState) (t : Task) (now : Nat)
    (hget : mapGet s.tasks t.id = some t)
    (hfree : mapGet s.folderLocks t.folderPath = none)
    (hinv : Inv s) : Inv (startedState s t now) := by
  obtain ⟨hKey, hTN, hLN, hLC, hRL, hCtx⟩ := hinv
  unfold startedState
  refine ⟨?_, updateTaskWith_keys_nodup _ _ _ hTN, ?_, ?_, ?_, ?_⟩
  · -- KeyInv
    intro tid' u hget'
    rw [mapGet_updateTaskWith] at hget'
    dsimp only at hget'
    by_cases h : t.id = tid'
    · subst h
      rw [if_pos rfl, hget] at hget'
      cases hget'
      exact hKey t.id t hget
    · rw [if_neg h] at hget'
      exact hKey tid' u hget'
  · rw [updateTaskWith_folderLocks]
    exact mapSet_keys_nodup _ _ _ hLN
  · -- LockConsistent
    intro p h hlock
    rw [updateTaskWith_folderLocks] at hlock
    dsimp only at hlock
    by_cases hp : p = t.folderPath
    · subst hp
      rw [mapGet_mapSet_self] at hlock
      cases hlock
      refine ⟨{ t with status := TaskStatus.running, startedAt := some now },
        ?_, rfl, rfl⟩
      rw [mapGet_updateTaskWith, if_pos rfl, hget]
      rfl
    · rw [mapGet_mapSet_ne _ _ _ _ (fun hh => hp hh.symm)] at hlock
      obtain ⟨u, hu, hufp, hurun⟩ := hLC p h hlock
      have hne : h ≠ t.id := by
        intro hh
        subst hh
        rw [hget] at hu
        cases hu
        exact hp hufp.symm
      refine ⟨u, ?_, hufp, hurun⟩
      rw [mapGet_updateTaskWith, if_neg (Ne.symm hne)]
      exact hu
  · -- RunningLocked
    intro tid' u hget' hrun
    rw [updateTaskWith_folderLocks]
    rw [mapGet_updateTaskWith] at hget'
    dsimp only at hget' ⊢
    by_cases h : t.id = tid'
    · subst h
      rw [if_pos rfl, hget] at hget'
      cases hget'
      rw [mapGet_mapSet_self]
    · rw [if_neg h] at hget'
      have hold := hRL tid' u hget' hrun
      have hufp : u.folderPath ≠ t.folderPath := by
        intro hp
        rw [hp, hfree] at hold
        cases hold
      rw [mapGet_mapSet_ne _ _ _ _ (fun hh => hufp hh.symm)]
      exact hold
  · -- CtxConsistent
    intro tid' fp hpend u hget'
    rw [updateTaskWith_pendingExec] at hpend
    dsimp only at hpend
    rw [mapGet_updateTaskWith] at hget'
    dsimp only at hget'
    by_cases h : t.id = tid'
    · subst h
      rw [if_pos rfl, hget] at hget'
      cases hget'
      exact hCtx t.id fp hpend t hget
    · rw [if_neg h] at hget'
      exact hCtx tid' fp hpend u hget'

/-- The task lookup inside the started state. -/
theorem startedState_get_self (s : ServerState) (t : Task) (now : Nat)
    (hget : mapGet s.tasks t.id = some t) :
    mapGet (startedState s t now).tasks t.id =
      some { t with status := TaskStatus.running, startedAt := some now } := by
  unfold startedState
  rw [mapGet_updateTaskWith, if_pos rfl]
  dsimp only
  rw [hget]
  rfl

theorem inv_start (s : ServerState) (tid : String) (t : Task)
    (processCwd spawnErrorMessage : String) (spawnOk : Bool) (now : Nat)
    (hget : mapGet s.tasks tid = some t) (hq : t.status = .queued)
    (hinv : Inv s) :
    Inv (executeTaskStart s t processCwd spawnOk spawnErrorMessage now).1 := by
  have htid : t.id = tid := hinv.1 tid t hget
  have hget' : mapGet s.tasks t.id = some t := by rw [htid]; exact hget
  by_cases hcs : canStartTask s.folderLocks t = true
  · -- the lock is free: canStartTask can only be true via the none case
    have hfree : mapGet s.folderLocks t.folderPath = none := by
      unfold canStartTask at hcs
      rcases hh : mapGet s.folderLocks t.folderPath with _ | h
      · rfl
      · exfalso
        rw [hh] at hcs
        simp only [decide_eq_true_eq] at hcs
        subst hcs
        obtain ⟨u, hu, hufp, hurun⟩ := hinv.2.2.2.1 _ _ hh
        rw [hget'] at hu
        cases hu
        rw [hq] at hurun
        cases hurun
    have hmid : Inv (startedState s t now) :=
      inv_acquire_run s t now hget' hfree hinv
    rcases hbc : buildCommand processCwd t with _ | c
    · rw [executeTaskStart_configError s t processCwd spawnErrorMessage
        spawnOk now hcs hbc]
      exact hmid
    · cases spawnOk
      · -- spawn failure: the catch block
        rw [executeTaskStart_spawnFailed s t processCwd spawnErrorMessage
          now c hcs hbc]
        unfold execCatch
        rw [updateTaskWith_comp]
        show Inv (updateTaskWith _ t.id _)
        unfold releaseFolderLock
        exact inv_release_update (startedState s t now) t.id t.folderPath
          ((startedState s t now).runningProcesses.erase t.id)
          (startedState s t now).pendingExec
          (fun u => { u with
              status := TaskStatus.error
              exitCode := some (-1)
              completedAt := some now
              terminalOutput :=
                u.terminalOutput ++ ["[error] " ++ spawnErrorMessage] })
          (fun x hx => hx)
          (fun u hu => by
            rw [startedState_get_self s t now hget'] at hu
            cases hu
            rfl)
          (fun u => rfl) (fun u => rfl)
          (fun u hcon => by cases hcon)
          hmid
      · -- spawn success
        rw [executeTaskStart_spawned s t processCwd spawnErrorMessage
          now c hcs hbc]
        obtain ⟨hKey, hTN, hLN, hLC, hRL, hCtx⟩ := hmid
        refine ⟨hKey, hTN, hLN, hLC, hRL, ?_⟩
        intro tid' fp hpend u hget2
        dsimp only at hpend hget2
        rcases List.mem_append.mp hpend with hp | hp
        · exact hCtx tid' fp hp u hget2
        · rw [List.mem_singleton] at hp
          cases hp
          rw [startedState_get_self s t now hget'] at hget2
          cases hget2
          rfl
  · rw [executeTaskStart_contention s t processCwd spawnErrorMessage
      spawnOk now (by revert hcs; cases canStartTask s.folderLocks t <;>
        simp)]
    exact hinv

theorem inv_init : Inv initState := by
  refine ⟨?_, ?_, ?_, ?_, ?_, ?_⟩
  · intro tid t hget
    cases hget
  · simp [initState]
  · simp [initState]
  · intro p tid hlock
    cases hlock
  · intro tid t hget
    cases hget
  · intro tid fp hpend
    cases hpend

theorem inv_step {s s' : ServerState} (hinv : Inv s) (hstep : Step s s') :
    Inv s' := by
  cases hstep with
  | create folderPath agent prompt originalPrompt id now hfresh hfresh2
      hfresh3 =>
      exact inv_create s folderPath agent prompt originalPrompt id now hinv
        hfresh hfresh2
  | start tid t processCwd spawnErrorMessage spawnOk now hget hq =>
      exact inv_start s tid t processCwd spawnErrorMessage spawnOk now hget
        hq hinv
  | emit tid fp line hpend => exact inv_emit s tid line hinv
  | finish tid fp exitCode now hpend =>
      exact inv_finish s tid fp exitCode now hpend hinv
  | stop tid now => exact inv_stop s tid now hinv
  | remove tid => exact inv_remove s tid hinv
  | reorder tid dir => exact inv_reorder s tid dir hinv

/-- Every reachable state of the event loop satisfies the folder-lock
invariant. -/
theorem inv_of_reachable {s : ServerState} (h : Reachable s) : Inv s := by
  induction h with
  | init => exact inv_init
  | step _ hstep ih => exact inv_step ih hstep

theorem splitNL_ne_nil (s : List Char) : splitNL s ≠ [] := by
  cases s with
  | nil => simp [splitNL]
  | cons c rest =>
      unfold splitNL
      by_cases h : c = '\n'
      · simp [h]
      · simp only [h, if_false]
        rcases splitNL rest with _ | ⟨seg, segs⟩ <;> simp

theorem splitNL_cons_nl (s : List Char) :
    splitNL ('\n' :: s) = [] :: splitNL s := by
  conv_lhs => rw [splitNL]
  simp

theorem splitNL_cons_ne (c : Char) (s : List Char) (h : c ≠ '\n') :
    splitNL (c :: s) =
      (c :: (splitNL s).headI) :: (splitNL s).tail := by
  rcases hs : splitNL s with _ | ⟨seg, segs⟩
  · exact absurd hs (splitNL_ne_nil s)
  · conv_lhs => rw [splitNL]
    simp [h, hs]

theorem splitNL_mem_nlFree (s : List Char) :
    ∀ seg ∈ splitNL s, '\n' ∉ seg := by
  induction s with
  | nil =>
      intro seg hseg
      simp only [splitNL, List.mem_singleton] at hseg
      subst hseg
      simp
  | cons c rest ih =>
      intro seg hseg
      by_cases h : c = '\n'
      · subst h
        rw [splitNL_cons_nl] at hseg
        rcases List.mem_cons.mp hseg with h1 | h1
        · subst h1
          simp
        · exact ih seg h1
      · rw [splitNL_cons_ne c rest h] at hseg
        rcases hs : splitNL rest with _ | ⟨seg0, segs0⟩
        · exact absurd hs (splitNL_ne_nil rest)
        rw [hs] at hseg
        simp only [List.headI, List.tail_cons] at hseg
        rcases List.mem_cons.mp hseg with h1 | h1
        · subst h1
          intro hmem
          rcases List.mem_cons.mp hmem with h2 | h2
          · exact h h2.symm
          · exact ih seg0 (by rw [hs]; exact List.mem_cons_self _ _) h2
        · exact ih seg (by rw [hs]; exact List.mem_cons_of_mem _ h1)

theorem splitNL_nlFree (s : List Char) (h : '\n' ∉ s) :
    splitNL s = [s] := by
  induction s with
  | nil => rfl
  | cons c rest ih =>
      have hc : c ≠ '\n' := fun hc => h (by simp [hc])
      rw [splitNL_cons_ne c rest hc,
        ih (fun hm => h (List.mem_cons_of_mem _ hm))]
      rfl

theorem splitNL_append_nlFree (a b : List Char) (h : '\n' ∉ a) :
    splitNL (a ++ b) =
      (a ++ (splitNL b).headI) :: (splitNL b).tail := by
  induction a with
  | nil =>
      simp only [List.nil_append]
      rcases hs : splitNL b with _ | ⟨seg, segs⟩
      · exact absurd hs (splitNL_ne_nil b)
      · simp
  | cons c rest ih =>
      have hc : c ≠ '\n' := fun hc => h (by simp [hc])
      rw [List.cons_append, splitNL_cons_ne c (rest ++ b) hc,
        ih (fun hm => h (List.mem_cons_of_mem _ hm))]
      simp

theorem getLastD_irrel {α : Type} (b : α) (l : List α) (d d' : α) :
    (b :: l).getLastD d = (b :: l).getLastD d' := by
  induction l generalizing b with
  | nil => rfl
  | cons x xs ih => exact ih x

theorem getLastD_cons_cons {α : Type} (a b : α) (l : List α) (d : α) :
    (a :: b :: l).getLastD d = (b :: l).getLastD d := by
  show (b :: l).getLastD a = (b :: l).getLastD d
  exact getLastD_irrel b l a d

theorem getLastD_singleton {α : Type} (a d : α) :
    ([a] : List α).getLastD d = a := rfl

theorem splitNL_singleton (x y : List Char) (h : splitNL x = [y]) :
    x = y := by
  induction x generalizing y with
  | nil =>
      simp only [splitNL] at h
      cases h
      rfl
  | cons c x' ih =>
      by_cases hc : c = '\n'
      · subst hc
        rw [splitNL_cons_nl] at h
        exact absurd (List.cons_eq_cons.mp h).2 (splitNL_ne_nil x')
      · rw [splitNL_cons_ne c x' hc] at h
        rcases hs : splitNL x' with _ | ⟨s0, ss⟩
        · exact absurd hs (splitNL_ne_nil x')
        rw [hs] at h
        simp only [List.headI, List.tail_cons, List.cons_eq_cons] at h
        obtain ⟨h1, h2⟩ := h
        subst h2
        rw [← h1, ih s0 hs]

theorem expectedSegs_cons_nl (x : List Char) :
    expectedSegs ('\n' :: x) = [] :: expectedSegs x := by
  unfold expectedSegs
  rw [splitNL_cons_nl]
  rcases hs : splitNL x with _ | ⟨s0, ss⟩
  · exact absurd hs (splitNL_ne_nil x)
  rw [getLastD_cons_cons]
  split
  · simp
  · rfl

theorem expectedSegs_cons_ne (c : Char) (x : List Char) (hc : c ≠ '\n')
    (hseg : List Char) (X : List (List Char))
    (h : expectedSegs x = hseg :: X) :
    expectedSegs (c :: x) = (c :: hseg) :: X := by
  unfold expectedSegs at h ⊢
  rw [splitNL_cons_ne c x hc]
  rcases hs : splitNL x with _ | ⟨s0, ss⟩
  · exact absurd hs (splitNL_ne_nil x)
  rw [hs] at h
  simp only [List.headI, List.tail_cons]
  cases ss with
  | nil =>
      rw [getLastD_singleton] at h ⊢
      by_cases h0 : s0 = []
      · subst h0
        simp at h
      · rw [if_neg h0] at h
        cases h
        rw [if_neg (by simp)]
  | cons s1 ss' =>
      rw [getLastD_cons_cons s0 s1 ss' []] at h
      rw [getLastD_cons_cons (c :: s0) s1 ss' []]
      by_cases hg : (s1 :: ss').getLastD [] = []
      · rw [if_pos hg] at h ⊢
        simp only [List.dropLast_cons₂] at h ⊢
        cases h
        rfl
      · rw [if_neg hg] at h ⊢
        cases h
        rfl

theorem segs_decomp (s r : List Char) :
    (splitNL s).dropLast ++ expectedSegs ((splitNL s).getLastD [] ++ r) =
      expectedSegs (s ++ r) := by
  induction s generalizing r with
  | nil => simp [splitNL]
  | cons c s' ih =>
      by_cases hc : c = '\n'
      · subst hc
        rw [List.cons_append, splitNL_cons_nl, expectedSegs_cons_nl]
        rcases hs : splitNL s' with _ | ⟨s0, ss⟩
        · exact absurd hs (splitNL_ne_nil s')
        rw [getLastD_cons_cons]
        have ih' := ih r
        rw [hs] at ih'
        simp only [List.dropLast_cons₂]
        rw [List.cons_append, ih']
      · rw [splitNL_cons_ne c s' hc]
        rcases hs : splitNL s' with _ | ⟨s0, ss⟩
        · exact absurd hs (splitNL_ne_nil s')
        have ih' := ih r
        rw [hs] at ih'
        simp only [List.headI, List.tail_cons]
        cases ss with
        | nil =>
            have hs0 : s' = s0 := splitNL_singleton s' s0 hs
            subst hs0
            simp only [List.dropLast_single, List.nil_append,
              getLastD_singleton, List.cons_append]
        | cons s1 ss' =>
            simp only [List.dropLast_cons₂, getLastD_cons_cons,
              List.cons_append] at ih' ⊢
            exact (expectedSegs_cons_ne c (s' ++ r) hc s0 _ ih'.symm).symm

theorem getLastD_mem_cons {α : Type} (a : α) (l : List α) (d : α) :
    (a :: l).getLastD d ∈ a :: l := by
  induction l generalizing a with
  | nil => simp [getLastD_singleton]
  | cons x xs ih =>
      rw [getLastD_cons_cons]
      exact List.mem_cons_of_mem a (ih x)

theorem readStreamGo_eq (tag : List Char) (chunks : List (List Char)) :
    ∀ buffer, '\n' ∉ buffer →
      readStreamGo tag buffer chunks =
        (expectedSegs (buffer ++ chunks.flatten)).map (applyStreamTag tag) := by
  induction chunks with
  | nil =>
      intro buffer hb
      show (if buffer = [] then [] else [applyStreamTag tag buffer]) = _
      rw [List.flatten_nil, List.append_nil]
      by_cases h : buffer = []
      · subst h
        simp [expectedSegs, splitNL]
      · rw [if_neg h]
        unfold expectedSegs
        rw [splitNL_nlFree buffer hb, getLastD_singleton, if_neg h]
        rfl
  | cons chunk rest ih =>
      intro buffer hb
      show (splitNL (buffer ++ chunk)).dropLast.map (applyStreamTag tag) ++
        readStreamGo tag ((splitNL (buffer ++ chunk)).getLastD []) rest = _
      have hnl : '\n' ∉ (splitNL (buffer ++ chunk)).getLastD [] := by
        rcases hs : splitNL (buffer ++ chunk) with _ | ⟨s0, ss⟩
        · exact absurd hs (splitNL_ne_nil _)
        · exact splitNL_mem_nlFree (buffer ++ chunk) _
            (by rw [hs]; exact getLastD_mem_cons s0 ss [])
      rw [ih _ hnl, ← List.map_append, List.flatten_cons, ← List.append_assoc,
        segs_decomp (buffer ++ chunk) rest.flatten]

/-- C5: output round-trip: the lines appended by the stream-draining
routine, for any chunking of a stream's text, are exactly the newline
segments of the concatenated text, each exactly once in original order,
with the trailing partial line (if non-empty) flushed as a final line
and no empty trailing segment appended, each line carrying the stream's
marker. -/
theorem readStreamLines_eq (tag : List Char) (chunks : List (List Char)) :
    readStreamLines tag chunks =
      (expectedSegs chunks.flatten).map (applyStreamTag tag) := by
  unfold readStreamLines
  rw [readStreamGo_eq tag chunks [] (by simp)]
  rfl

/-! ### Properties of the scheduler enumeration -/

theorem runnableGo_sound (tasks : List (String × Task))
    (locks : List (String × String)) :
    ∀ (order : List String) (folders : List String),
      ∀ t ∈ runnableGo tasks locks order folders,
        (∃ tid, tid ∈ order ∧ mapGet tasks tid = some t) ∧
          t.status = .queued ∧ canStartTask locks t = true ∧
          t.folderPath ∉ folders := by
  intro order
  induction order with
  | nil =>
      intro folders t ht
      simp [runnableGo] at ht
  | cons tid rest ih =>
      intro folders t ht
      unfold runnableGo at ht
      rcases hm : mapGet tasks tid with _ | t0
      · rw [hm] at ht
        obtain ⟨⟨tid', h1, h2⟩, h3, h4, h5⟩ := ih folders t ht
        exact ⟨⟨tid', List.mem_cons_of_mem _ h1, h2⟩, h3, h4, h5⟩
      · rw [hm] at ht
        dsimp only at ht
        by_cases hq : t0.status ≠ TaskStatus.queued
        · rw [if_pos hq] at ht
          obtain ⟨⟨tid', h1, h2⟩, h3, h4, h5⟩ := ih folders t ht
          exact ⟨⟨tid', List.mem_cons_of_mem _ h1, h2⟩, h3, h4, h5⟩
        · rw [if_neg hq] at ht
          by_cases hskip :
              ¬ canStartTask locks t0 = true ∨ t0.folderPath ∈ folders
          · rw [if_pos hskip] at ht
            obtain ⟨⟨tid', h1, h2⟩, h3, h4, h5⟩ := ih folders t ht
            exact ⟨⟨tid', List.mem_cons_of_mem _ h1, h2⟩, h3, h4, h5⟩
          · rw [if_neg hskip] at ht
            push_neg at hskip
            rcases List.mem_cons.mp ht with h1 | h1
            · subst h1
              push_neg at hq
              exact ⟨⟨tid, List.mem_cons_self _ _, hm⟩, hq, hskip.1,
                hskip.2⟩
            · obtain ⟨⟨tid', h2, h3⟩, h4, h5, h6⟩ :=
                ih (t0.folderPath :: folders) t h1
              exact ⟨⟨tid', List.mem_cons_of_mem _ h2, h3⟩, h4, h5,
                fun hmem => h6 (List.mem_cons_of_mem _ hmem)⟩

theorem runnableGo_folders_nodup (tasks : List (String × Task))
    (locks : List (String × String)) :
    ∀ (order : List String) (folders : List String),
      ((runnableGo tasks locks order folders).map
        (fun t => t.folderPath)).Nodup := by
  intro order
  induction order with
  | nil =>
      intro folders
      simp [runnableGo]
  | cons tid rest ih =>
      intro folders
      unfold runnableGo
      rcases hm : mapGet tasks tid with _ | t0
      · exact ih folders
      · dsimp only
        by_cases hq : t0.status ≠ TaskStatus.queued
        · rw [if_pos hq]
          exact ih folders
        · rw [if_neg hq]
          by_cases hskip :
              ¬ canStartTask locks t0 = true ∨ t0.folderPath ∈ folders
          · rw [if_pos hskip]
            exact ih folders
          · rw [if_neg hskip]
            simp only [List.map_cons, List.nodup_cons]
            refine ⟨?_, ih (t0.folderPath :: folders)⟩
            intro hmem
            obtain ⟨u, hu, hufp⟩ := List.mem_map.mp hmem
            obtain ⟨_, _, _, hnot⟩ :=
              runnableGo_sound tasks locks rest (t0.folderPath :: folders)
                u hu
            exact hnot (by rw [hufp]; exact List.mem_cons_self _ _)

theorem runnableGo_ids_sublist (tasks : List (String × Task))
    (locks : List (String × String))
    (hkey : ∀ tid t, mapGet tasks tid = some t → t.id = tid) :
    ∀ (order : List String) (folders : List String),
      ((runnableGo tasks locks order folders).map
        (fun t => t.id)).Sublist order := by
  intro order
  induction order with
  | nil =>
      intro folders
      simp [runnableGo]
  | cons tid rest ih =>
      intro folders
      unfold runnableGo
      rcases hm : mapGet tasks tid with _ | t0
      · exact (ih folders).cons tid
      · dsimp only
        by_cases hq : t0.status ≠ TaskStatus.queued
        · rw [if_pos hq]
          exact (ih folders).cons tid
        · rw [if_neg hq]
          by_cases hskip :
              ¬ canStartTask locks t0 = true ∨ t0.folderPath ∈ folders
          · rw [if_pos hskip]
            exact (ih folders).cons tid
          · rw [if_neg hskip]
            simp only [List.map_cons]
            rw [hkey tid t0 hm]
            exact (ih (t0.folderPath :: folders)).cons₂ tid

theorem canStartTask_iff (locks : List (String × String)) (t : Task) :
    canStartTask locks t = true ↔
      mapGet locks t.folderPath = none ∨
        mapGet locks t.folderPath = some t.id := by
  unfold canStartTask
  rcases hh : mapGet locks t.folderPath with _ | h <;> simp

theorem runnableGo_earliest (tasks : List (String × Task))
    (locks : List (String × String))
    (hkey : ∀ tid t, mapGet tasks tid = some t → t.id = tid)
    (hnq : ∀ p tid, mapGet locks p = some tid →
      ∀ t, mapGet tasks tid = some t → t.status ≠ .queued) :
    ∀ (order folders : List String),
      ∀ t ∈ runnableGo tasks locks order folders,
        ∃ l1 l2, order = l1 ++ t.id :: l2 ∧
          ∀ tid' ∈ l1, ∀ t', mapGet tasks tid' = some t' →
            t'.status = .queued → t'.folderPath ≠ t.folderPath := by
  intro order
  induction order with
  | nil =>
      intro folders t ht
      simp [runnableGo] at ht
  | cons tid rest ih =>
      intro folders t ht
      unfold runnableGo at ht
      rcases hm : mapGet tasks tid with _ | t0
      · rw [hm] at ht
        dsimp only at ht
        obtain ⟨l1, l2, hdecomp, hcond⟩ := ih folders t ht
        refine ⟨tid :: l1, l2, by rw [hdecomp]; rfl, ?_⟩
        intro tid' hmem t' hget' hq'
        rcases List.mem_cons.mp hmem with h | h
        · subst h
          rw [hm] at hget'
          cases hget'
        · exact hcond tid' h t' hget' hq'
      · rw [hm] at ht
        dsimp only at ht
        by_cases hq : t0.status ≠ TaskStatus.queued
        · rw [if_pos hq] at ht
          obtain ⟨l1, l2, hdecomp, hcond⟩ := ih folders t ht
          refine ⟨tid :: l1, l2, by rw [hdecomp]; rfl, ?_⟩
          intro tid' hmem t' hget' hq'
          rcases List.mem_cons.mp hmem with h | h
          · subst h
            rw [hm] at hget'
            cases hget'
            exact absurd hq' hq
          · exact hcond tid' h t' hget' hq'
        · rw [if_neg hq] at ht
          by_cases hskip :
              ¬ canStartTask locks t0 = true ∨ t0.folderPath ∈ folders
          · rw [if_pos hskip] at ht
            obtain ⟨l1, l2, hdecomp, hcond⟩ := ih folders t ht
            refine ⟨tid :: l1, l2, by rw [hdecomp]; rfl, ?_⟩
            intro tid' hmem t' hget' hq'
            rcases List.mem_cons.mp hmem with h | h
            · subst h
              rw [hm] at hget'
              cases hget'
              intro hfp
              obtain ⟨⟨tid2, htid2, hget2⟩, htq, htcs, htnf⟩ :=
                runnableGo_sound tasks locks rest folders t ht
              rcases hskip with hcs | hf
              · rcases hh : mapGet locks t0.folderPath with _ | h2
                · exact hcs (by unfold canStartTask; rw [hh])
                · have hlt : mapGet locks t.folderPath = some t.id := by
                    rcases (canStartTask_iff locks t).mp htcs with hn | hs
                    · rw [← hfp] at hn
                      rw [hn] at hh
                      cases hh
                    · exact hs
                  have hgett : mapGet tasks t.id = some t := by
                    rw [hkey tid2 t hget2]
                    exact hget2
                  exact hnq t.folderPath t.id hlt t hgett htq
              · exact htnf (hfp ▸ hf)
            · exact hcond tid' h t' hget' hq'
          · rw [if_neg hskip] at ht
            rcases List.mem_cons.mp ht with h1 | h1
            · subst h1
              refine ⟨[], rest, ?_, ?_⟩
              · rw [hkey tid t hm]
                rfl
              · intro tid' hmem
                cases hmem
            · obtain ⟨l1, l2, hdecomp, hcond⟩ :=
                ih (t0.folderPath :: folders) t h1
              refine ⟨tid :: l1, l2, by rw [hdecomp]; rfl, ?_⟩
              intro tid' hmem t' hget' hq'
              rcases List.mem_cons.mp hmem with h | h
              · subst h
                rw [hm] at hget'
                cases hget'
                obtain ⟨_, _, _, htnf⟩ :=
                  runnableGo_sound tasks locks rest
                    (t0.folderPath :: folders) t h1
                intro hfp
                exact htnf (by rw [← hfp]; exact List.mem_cons_self _ _)
              · exact hcond tid' h t' hget' hq'

theorem runnableGo_complete (tasks : List (String × Task))
    (locks : List (String × String)) :
    ∀ (order folders : List String) (tid : String) (t : Task),
      tid ∈ order → mapGet tasks tid = some t → t.status = .queued →
      canStartTask locks t = true →
      (∃ u ∈ runnableGo tasks locks order folders,
        u.folderPath = t.folderPath) ∨ t.folderPath ∈ folders := by
  intro order
  induction order with
  | nil =>
      intro folders tid t h
      simp at h
  | cons tid0 rest ih =>
      intro folders tid t hmem hget hq hcs
      unfold runnableGo
      rcases List.mem_cons.mp hmem with h | h
      · subst h
        rw [hget]
        dsimp only
        rw [if_neg (by simp [hq])]
        by_cases hf : t.folderPath ∈ folders
        · rw [if_pos (Or.inr hf)]
          exact Or.inr hf
        · rw [if_neg (by
            intro hor
            rcases hor with h1 | h1
            · exact h1 hcs
            · exact hf h1)]
          exact Or.inl ⟨t, List.mem_cons_self _ _, rfl⟩
      · rcases hm : mapGet tasks tid0 with _ | t0
        · dsimp only
          exact ih folders tid t h hget hq hcs
        · dsimp only
          by_cases hq0 : t0.status ≠ TaskStatus.queued
          · rw [if_pos hq0]
            exact ih folders tid t h hget hq hcs
          · rw [if_neg hq0]
            by_cases hskip :
                ¬ canStartTask locks t0 = true ∨ t0.folderPath ∈ folders
            · rw [if_pos hskip]
              exact ih folders tid t h hget hq hcs
            · rw [if_neg hskip]
              rcases ih (t0.folderPath :: folders) tid t h hget hq hcs
                with h1 | h1
              · obtain ⟨u, hu, hufp⟩ := h1
                exact Or.inl ⟨u, List.mem_cons_of_mem _ hu, hufp⟩
              · rcases List.mem_cons.mp h1 with h2 | h2
                · exact Or.inl ⟨t0, List.mem_cons_self _ _, h2.symm⟩
                · exact Or.inr h2

theorem getD_set_self (l : List String) (i : Nat) (a d : String)
    (h : i < l.length) : (l.set i a).getD i d = a := by
  simp [List.getD_eq_getElem?_getD, List.getElem?_set_self', h]

theorem getD_set_ne (l : List String) (i j : Nat) (a d : String)
    (h : i ≠ j) : (l.set i a).getD j d = l.getD j d := by
  simp [List.getD_eq_getElem?_getD, List.getElem?_set_ne h]

theorem adjSwap_spec (l : List String) (i : Nat) (h : i + 1 < l.length) :
    (adjSwap l i).length = l.length ∧
      (adjSwap l i).getD i "" = l.getD (i + 1) "" ∧
      (adjSwap l i).getD (i + 1) "" = l.getD i "" ∧
      ∀ j, j ≠ i → j ≠ i + 1 → (adjSwap l i).getD j "" = l.getD j "" := by
  refine ⟨by simp [adjSwap], ?_, ?_, ?_⟩
  · rw [adjSwap, getD_set_ne _ _ _ _ _ (by omega : i + 1 ≠ i),
      getD_set_self _ _ _ _ (by omega : i < l.length)]
  · rw [adjSwap, getD_set_self _ _ _ _ (by simpa using h)]
  · intro j hji hji1
    rw [adjSwap, getD_set_ne _ _ _ _ _ (fun hh => hji1 hh.symm),
      getD_set_ne _ _ _ _ _ (fun hh => hji hh.symm)]

theorem reorderList_absent (order : List String) (tid : String)
    (dir : Direction) (h : tid ∉ order) :
    reorderList order tid dir = (order, false) := by
  unfold reorderList
  rw [if_neg h]

theorem reorderList_up_first (order : List String) (tid : String)
    (h : tid ∈ order) (h0 : order.indexOf tid = 0) :
    reorderList order tid .up = (order, false) := by
  unfold reorderList
  rw [if_pos h]
  dsimp only
  rw [if_pos (Or.inl ⟨rfl, h0⟩)]

theorem reorderList_down_last (order : List String) (tid : String)
    (h : tid ∈ order) (hl : order.indexOf tid = order.length - 1) :
    reorderList order tid .down = (order, false) := by
  unfold reorderList
  rw [if_pos h]
  dsimp only
  have hlt : order.indexOf tid < order.length :=
    List.indexOf_lt_length.mpr h
  rw [if_pos (Or.inr (by omega))]

theorem reorderList_up_swap (order : List String) (tid : String)
    (h : tid ∈ order) (h0 : order.indexOf tid ≠ 0) :
    reorderList order tid .up =
      (adjSwap order (order.indexOf tid - 1), true) := by
  unfold reorderList
  rw [if_pos h]
  dsimp only
  have hlt : order.indexOf tid < order.length :=
    List.indexOf_lt_length.mpr h
  rw [if_neg (by
    intro hor
    rcases hor with ⟨_, hc⟩ | hc
    · exact h0 hc
    · omega)]
  unfold adjSwap
  have harith : order.indexOf tid - 1 + 1 = order.indexOf tid := by omega
  rw [harith, List.set_comm _ _ _ (by omega : order.indexOf tid ≠
    order.indexOf tid - 1)]

theorem reorderList_down_swap (order : List String) (tid : String)
    (h : tid ∈ order) (hl : order.indexOf tid ≠ order.length - 1) :
    reorderList order tid .down =
      (adjSwap order (order.indexOf tid), true) := by
  unfold reorderList
  rw [if_pos h]
  dsimp only
  have hlt : order.indexOf tid < order.length :=
    List.indexOf_lt_length.mpr h
  rw [if_neg (by
    intro hor
    rcases hor with ⟨hc, _⟩ | hc
    · cases hc
    · omega)]
  rfl

theorem demoCreated_reachable : Reachable demoCreated :=
  Reachable.step Reachable.init
    (Step.create initState "/f" "claude" "p" none "A" 0 (by decide)
      (by decide) (by decide))

theorem demoStarted_reachable : Reachable demoStarted :=
  Reachable.step demoCreated_reachable
    (Step.start demoCreated "A" demoTask "/" "" true 1 (by decide)
      (by decide))

/-! ### The claims -/

/-- C1: Folder exclusivity invariant: in every reachable state, a folder
path appears in the folder lock table iff some task with that normalized
folder path has status running; there is at most one lock entry per
folder path; the task a lock names has status running (and lives in that
folder); and consequently for every folder at most one task is running
at any time.  The invariant is preserved by every event-loop step
(createTask, executeTask's acquire-then-transition including the
spawn-failure path, natural completion, stopTask, removeTask,
reorderTask, output lines). -/
theorem folder_lock_exclusivity (s : ServerState) (h : Reachable s) :
    (∀ p, (∃ tid, mapGet s.folderLocks p = some tid) ↔
      ∃ tid t, mapGet s.tasks tid = some t ∧ t.folderPath = p ∧
        t.status = TaskStatus.running) ∧
    (s.folderLocks.map Prod.fst).Nodup ∧
    (∀ p tid, mapGet s.folderLocks p = some tid →
      ∃ t, mapGet s.tasks tid = some t ∧ t.folderPath = p ∧
        t.status = TaskStatus.running) ∧
    (∀ tid1 t1 tid2 t2, mapGet s.tasks tid1 = some t1 →
      mapGet s.tasks tid2 = some t2 → t1.status = TaskStatus.running →
      t2.status = TaskStatus.running → t1.folderPath = t2.folderPath →
      tid1 = tid2) := by
  obtain ⟨hKey, hTN, hLN, hLC, hRL, hCtx⟩ := inv_of_reachable h
  refine ⟨?_, hLN, hLC, ?_⟩
  · intro p
    constructor
    · intro ⟨tid, hlock⟩
      obtain ⟨t, hget, hfp, hst⟩ := hLC p tid hlock
      exact ⟨tid, t, hget, hfp, hst⟩
    · intro ⟨tid, t, hget, hfp, hst⟩
      exact ⟨tid, by rw [← hfp]; exact hRL tid t hget hst⟩
  · intro tid1 t1 tid2 t2 hget1 hget2 hrun1 hrun2 hfp
    have h1 := hRL tid1 t1 hget1 hrun1
    have h2 := hRL tid2 t2 hget2 hrun2
    rw [hfp] at h1
    rw [h1] at h2
    cases h2
    rfl

/-- Witness for C1 at the concrete reachable state with one running
task. -/
theorem folder_lock_exclusivity_witness :
    (∀ p, (∃ tid, mapGet demoStarted.folderLocks p = some tid) ↔
      ∃ tid t, mapGet demoStarted.tasks tid = some t ∧
        t.folderPath = p ∧ t.status = TaskStatus.running) ∧
    (demoStarted.folderLocks.map Prod.fst).Nodup ∧
    (∀ p tid, mapGet demoStarted.folderLocks p = some tid →
      ∃ t, mapGet demoStarted.tasks tid = some t ∧ t.folderPath = p ∧
        t.status = TaskStatus.running) ∧
    (∀ tid1 t1 tid2 t2, mapGet demoStarted.tasks tid1 = some t1 →
      mapGet demoStarted.tasks tid2 = some t2 →
      t1.status = TaskStatus.running → t2.status = TaskStatus.running →
      t1.folderPath = t2.folderPath → tid1 = tid2) :=
  folder_lock_exclusivity demoStarted demoStarted_reachable

/-- C2: the error-containment claim fails on the code for an
unresolvable agent kind: buildCommand is invoked after the lock
acquisition and running transition but before the try block, so the
thrown ConfigurationError escapes executeTask.  Evaluating the embedded
executeTask on a task whose agent is "gpt" shows the folder lock still
held, the task left in status running with no diagnostic line and no
exit code — not the claimed released-lock/error-status/diagnostic
containment. -/
theorem configError_escapes_containment :
    (executeTaskStart badAgentState badAgentTask "/" true "boom" 1).2 =
      StartOutcome.configError ∧
    mapGet (executeTaskStart badAgentState badAgentTask "/" true "boom"
      1).1.folderLocks "/w" = some "B" ∧
    (mapGet (executeTaskStart badAgentState badAgentTask "/" true "boom"
      1).1.tasks "B").map Task.status = some TaskStatus.running ∧
    (mapGet (executeTaskStart badAgentState badAgentTask "/" true "boom"
      1).1.tasks "B").map Task.terminalOutput = some [] ∧
    (mapGet (executeTaskStart badAgentState badAgentTask "/" true "boom"
      1).1.tasks "B").map Task.exitCode = some none := by
  decide

/-- C3 counterexample: cancel a running task (terminal error, exitCode
-9, completedAt 5, with the completion continuation still pending), then
let the killed process's exit continuation run: it does not observe the
terminal state and overwrites exitCode and completedAt — refuting "the
other path observes the task already terminal and does not modify
it". -/
theorem cancel_completion_race_counterexample :
    (mapGet (stopTask demoStarted "A" 5).1.tasks "A").map Task.status =
      some TaskStatus.error ∧
    (mapGet (stopTask demoStarted "A" 5).1.tasks "A").map Task.exitCode =
      some (some (-9)) ∧
    (mapGet (stopTask demoStarted "A" 5).1.tasks "A").map
      Task.completedAt = some (some 5) ∧
    ("A", "/f") ∈ (stopTask demoStarted "A" 5).1.pendingExec ∧
    (mapGet (executeTaskFinish (stopTask demoStarted "A" 5).1 "A" "/f"
      137 9).tasks "A").map Task.exitCode = some (some 137) ∧
    (mapGet (executeTaskFinish (stopTask demoStarted "A" 5).1 "A" "/f"
      137 9).tasks "A").map Task.completedAt = some (some 9) := by
  decide

/-- C3 amended: only the cancel path checks for a live process — once
the running-process entry is gone, stopTask returns false and mutates
nothing — but the natural-completion continuation performs its terminal
transition unconditionally: whenever the task is still registered it
sets status from the exit code and overwrites exitCode and completedAt,
even if the task is already terminal (as after a cancel). -/
theorem terminal_transition_amended :
    (∀ (s : ServerState) (tid : String) (now : Nat),
      tid ∉ s.runningProcesses → stopTask s tid now = (s, false)) ∧
    (∀ (s : ServerState) (tid fp : String) (ec : Int) (now : Nat)
      (u0 : Task), mapGet s.tasks tid = some u0 →
      ∃ u, mapGet (executeTaskFinish s tid fp ec now).tasks tid =
          some u ∧
        u.status =
          (if ec = 0 then TaskStatus.completed else TaskStatus.error) ∧
        u.exitCode = some ec ∧ u.completedAt = some now) := by
  constructor
  · exact stopTask_not_running
  · intro s tid fp ec now u0 hu0
    unfold executeTaskFinish
    rw [mapGet_updateTaskWith, if_pos rfl]
    dsimp only
    rw [hu0]
    exact ⟨_, rfl, rfl, rfl, rfl⟩

/-- Witness for the amended C3 statement. -/
theorem terminal_transition_amended_witness :
    stopTask initState "Z" 3 = (initState, false) ∧
    (∃ u, mapGet (executeTaskFinish (stopTask demoStarted "A" 5).1 "A"
        "/f" 137 9).tasks "A" = some u ∧
      u.status =
        (if (137 : Int) = 0 then TaskStatus.completed
         else TaskStatus.error) ∧
      u.exitCode = some 137 ∧ u.completedAt = some 9) :=
  ⟨terminal_transition_amended.1 initState "Z" 3 (by decide),
   terminal_transition_amended.2 (stopTask demoStarted "A" 5).1 "A" "/f"
     137 9
     { id := "A", folderPath := "/f", agent := "claude", prompt := "p",
       originalPrompt := none, status := TaskStatus.error,
       terminalOutput := ["[system] Task stopped by user"],
       exitCode := some (-9), createdAt := 0, startedAt := some 1,
       completedAt := some 5 }
     (by decide)⟩

/-- C4 counterexample: over arbitrary registry and lock-table states the
claim's FIFO conclusion fails: with both t1 and t2 queued in folder "/f"
in that order and the lock entry naming t2, the pass skips t1 (canStart
false) and selects t2 — not the earliest-ordered queued task of its
folder. -/
theorem scheduler_fifo_counterexample :
    (getNextRunnableTasks cxSchedState).map Task.id = ["t2"] ∧
    cxSchedState.taskOrder = ["t1", "t2"] ∧
    (mapGet cxSchedState.tasks "t1").map Task.status =
      some TaskStatus.queued ∧
    (mapGet cxSchedState.tasks "t1").map Task.folderPath = some "/f" ∧
    (mapGet cxSchedState.tasks "t2").map Task.folderPath = some "/f" := by
  decide

/-- C4 amended: for every registry and lock-table state whose task-map
keys agree with the stored ids and in which no lock entry names a queued
task (both hold in every reachable state, by the C1 invariant), the
scheduler pass returns exactly the queued startable tasks in task-order
position, at most one per folder path; each selected task is the
earliest-ordered queued task of its folder; and every queued startable
task's folder is represented in the result. -/
theorem getNextRunnableTasks_spec (s : ServerState)
    (hkey : ∀ tid t, mapGet s.tasks tid = some t → t.id = tid)
    (hnq : ∀ p tid, mapGet s.folderLocks p = some tid →
      ∀ t, mapGet s.tasks tid = some t → t.status ≠ TaskStatus.queued) :
    (∀ t ∈ getNextRunnableTasks s, mapGet s.tasks t.id = some t ∧
      t.status = TaskStatus.queued ∧
      canStartTask s.folderLocks t = true) ∧
    ((getNextRunnableTasks s).map (fun t => t.folderPath)).Nodup ∧
    ((getNextRunnableTasks s).map (fun t => t.id)).Sublist s.taskOrder ∧
    (∀ t ∈ getNextRunnableTasks s, ∃ l1 l2,
      s.taskOrder = l1 ++ t.id :: l2 ∧
      ∀ tid' ∈ l1, ∀ t', mapGet s.tasks tid' = some t' →
        t'.status = TaskStatus.queued →
        t'.folderPath ≠ t.folderPath) ∧
    (∀ tid t, tid ∈ s.taskOrder → mapGet s.tasks tid = some t →
      t.status = TaskStatus.queued →
      canStartTask s.folderLocks t = true →
      ∃ u ∈ getNextRunnableTasks s, u.folderPath = t.folderPath) := by
  refine ⟨?_, ?_, ?_, ?_, ?_⟩
  · intro t ht
    obtain ⟨⟨tid, _, hget⟩, hq, hcs, _⟩ :=
      runnableGo_sound s.tasks s.folderLocks s.taskOrder [] t ht
    have := hkey tid t hget
    subst this
    exact ⟨hget, hq, hcs⟩
  · exact runnableGo_folders_nodup s.tasks s.folderLocks s.taskOrder []
  · exact runnableGo_ids_sublist s.tasks s.folderLocks hkey s.taskOrder []
  · intro t ht
    exact runnableGo_earliest s.tasks s.folderLocks hkey hnq s.taskOrder
      [] t ht
  · intro tid t hmem hget hq hcs
    rcases runnableGo_complete s.tasks s.folderLocks s.taskOrder [] tid t
      hmem hget hq hcs with h | h
    · exact h
    · cases h

/-- Witness for the amended C4 statement. -/
theorem getNextRunnableTasks_spec_witness :
    (∀ t ∈ getNextRunnableTasks gsState,
      mapGet gsState.tasks t.id = some t ∧
      t.status = TaskStatus.queued ∧
      canStartTask gsState.folderLocks t = true) ∧
    ((getNextRunnableTasks gsState).map (fun t => t.folderPath)).Nodup ∧
    ((getNextRunnableTasks gsState).map
      (fun t => t.id)).Sublist gsState.taskOrder ∧
    (∀ t ∈ getNextRunnableTasks gsState, ∃ l1 l2,
      gsState.taskOrder = l1 ++ t.id :: l2 ∧
      ∀ tid' ∈ l1, ∀ t', mapGet gsState.tasks tid' = some t' →
        t'.status = TaskStatus.queued →
        t'.folderPath ≠ t.folderPath) ∧
    (∀ tid t, tid ∈ gsState.taskOrder → mapGet gsState.tasks tid = some t →
      t.status = TaskStatus.queued →
      canStartTask gsState.folderLocks t = true →
      ∃ u ∈ getNextRunnableTasks gsState,
        u.folderPath = t.folderPath) := by
  refine getNextRunnableTasks_spec gsState ?_ ?_
  · intro tid t h
    simp only [gsState, mapGet] at h
    split_ifs at h with h1
    cases h
    exact h1
  · intro p tid hlock
    simp only [gsState, mapGet] at hlock
    cases hlock

/-- C6: reorderTask on the order list: an absent id, the first task
moved up, or the last task moved down return false and leave the order
unchanged; any interior move returns true and swaps exactly the task
with its adjacent neighbour in the given direction, leaving the length
and every other position unchanged. -/
theorem reorderTask_boundary_swap (order : List String) (tid : String)
    (dir : Direction) :
    (tid ∉ order → reorderList order tid dir = (order, false)) ∧
    (tid ∈ order → dir = Direction.up → order.indexOf tid = 0 →
      reorderList order tid dir = (order, false)) ∧
    (tid ∈ order → dir = Direction.down →
      order.indexOf tid = order.length - 1 →
      reorderList order tid dir = (order, false)) ∧
    (tid ∈ order → dir = Direction.up → order.indexOf tid ≠ 0 →
      reorderList order tid dir =
        (adjSwap order (order.indexOf tid - 1), true)) ∧
    (tid ∈ order → dir = Direction.down →
      order.indexOf tid ≠ order.length - 1 →
      reorderList order tid dir =
        (adjSwap order (order.indexOf tid), true)) ∧
    (∀ i, i + 1 < order.length →
      (adjSwap order i).length = order.length ∧
      (adjSwap order i).getD i "" = order.getD (i + 1) "" ∧
      (adjSwap order i).getD (i + 1) "" = order.getD i "" ∧
      ∀ j, j ≠ i → j ≠ i + 1 →
        (adjSwap order i).getD j "" = order.getD j "") := by
  refine ⟨fun h => reorderList_absent order tid dir h, ?_, ?_, ?_, ?_,
    fun i h => adjSwap_spec order i h⟩
  · intro h hdir h0
    subst hdir
    exact reorderList_up_first order tid h h0
  · intro h hdir hl
    subst hdir
    exact reorderList_down_last order tid h hl
  · intro h hdir h0
    subst hdir
    exact reorderList_up_swap order tid h h0
  · intro h hdir hl
    subst hdir
    exact reorderList_down_swap order tid h hl

/-- Witness for C6 on a three-element order. -/
theorem reorderTask_boundary_swap_witness :
    reorderList ["a", "b", "c"] "b" Direction.up =
      (adjSwap ["a", "b", "c"] 0, true) ∧
    adjSwap ["a", "b", "c"] 0 = ["b", "a", "c"] ∧
    reorderList ["a", "b", "c"] "a" Direction.up =
      (["a", "b", "c"], false) :=
  ⟨(reorderTask_boundary_swap ["a", "b", "c"] "b"
      Direction.up).2.2.2.1 (by decide) rfl (by decide),
   by decide,
   (reorderTask_boundary_swap ["a", "b", "c"] "a"
      Direction.up).2.1 (by decide) rfl (by decide)⟩

/-- C7: stopTask on a task id with no entry in the running-process map
returns false and mutates nothing: the task map, task order, lock
table, running-process map and pending executions are all returned
unchanged. -/
theorem stopTask_absent_noop (s : ServerState) (tid : String) (now : Nat)
    (h : tid ∉ s.runningProcesses) : stopTask s tid now = (s, false) :=
  stopTask_not_running s tid now h

/-- Witness for C7. -/
theorem stopTask_absent_noop_witness :
    stopTask initState "X" 7 = (initState, false) :=
  stopTask_absent_noop initState "X" 7 (by decide)

/-- C8: releaseFolderLock is a no-op whenever the lock entry for the
task's folder is absent or held by a different id; it deletes the entry
exactly when the task's id is the current holder. -/
theorem releaseFolderLock_stale_noop (locks : List (String × String))
    (t : Task) :
    (mapGet locks t.folderPath ≠ some t.id →
      releaseFolderLock locks t = locks) ∧
    (mapGet locks t.folderPath = some t.id →
      releaseFolderLock locks t = mapDelete locks t.folderPath) := by
  constructor <;> intro h <;> unfold releaseFolderLock
  · rw [if_neg h]
  · rw [if_pos h]

/-- Witness for C8: a stale release by task "t1" against a lock held by
"B" changes nothing. -/
theorem releaseFolderLock_stale_noop_witness :
    releaseFolderLock [("/f", "B")] cxTask1 = [("/f", "B")] :=
  (releaseFolderLock_stale_noop [("/f", "B")] cxTask1).1 (by decide)

/-- C9: removing a running task deletes it from the task map and order
and removes its folder-lock entry, returning true — but does not touch
the running-process map: isTaskRunning still reports true afterwards,
so the underlying process association survives removal. -/
theorem removeTask_keeps_process (s : ServerState) (tid : String)
    (t : Task) (hreach : Reachable s)
    (hget : mapGet s.tasks tid = some t)
    (hrun : t.status = TaskStatus.running)
    (hproc : tid ∈ s.runningProcesses) :
    (removeTask s tid).2 = true ∧
    mapGet (removeTask s tid).1.tasks tid = none ∧
    (removeTask s tid).1.taskOrder = s.taskOrder.erase tid ∧
    mapGet (removeTask s tid).1.folderLocks t.folderPath = none ∧
    (removeTask s tid).1.runningProcesses = s.runningProcesses ∧
    isTaskRunning (removeTask s tid).1 tid = true := by
  obtain ⟨hKey, hTN, hLN, hLC, hRL, hCtx⟩ := inv_of_reachable hreach
  have hlock := hRL tid t hget hrun
  unfold removeTask
  rw [hget]
  dsimp only
  rw [if_pos hlock]
  refine ⟨rfl, ?_, rfl, ?_, rfl, ?_⟩
  · exact mapGet_mapDelete_self _ _ hTN
  · exact mapGet_mapDelete_self _ _ hLN
  · simp [isTaskRunning, hproc]

/-- Witness for C9 at the concrete reachable state with one running
task. -/
theorem removeTask_keeps_process_witness :
    (removeTask demoStarted "A").2 = true ∧
    mapGet (removeTask demoStarted "A").1.tasks "A" = none ∧
    (removeTask demoStarted "A").1.taskOrder =
      demoStarted.taskOrder.erase "A" ∧
    mapGet (removeTask demoStarted "A").1.folderLocks
      demoRunningTask.folderPath = none ∧
    (removeTask demoStarted "A").1.runningProcesses =
      demoStarted.runningProcesses ∧
    isTaskRunning (removeTask demoStarted "A").1 "A" = true :=
  removeTask_keeps_process demoStarted "A" demoRunningTask
    demoStarted_reachable (by decide) (by decide) (by decide)

/-- C10: the spawn-failure / execution-error catch path records the
sentinel exit code -1 and the cancellation path records the sentinel
exit code -9, both with terminal error status; the sentinels are
negative and distinct, so the two failure modes are distinguishable by
exitCode alone. -/
theorem sentinel_exit_codes :
    (∀ (s : ServerState) (t : Task) (msg : String) (now : Nat)
      (u0 : Task), mapGet s.tasks t.id = some u0 →
      ∃ u, mapGet (execCatch s t msg now).tasks t.id = some u ∧
        u.exitCode = some (-1) ∧ u.status = TaskStatus.error) ∧
    (∀ (s : ServerState) (tid : String) (now : Nat) (u0 : Task),
      tid ∈ s.runningProcesses → mapGet s.tasks tid = some u0 →
      ∃ u, mapGet (stopTask s tid now).1.tasks tid = some u ∧
        u.exitCode = some (-9) ∧ u.status = TaskStatus.error) ∧
    ((-1 : Int) < 0 ∧ (-9 : Int) < 0 ∧ (-1 : Int) ≠ (-9 : Int)) := by
  refine ⟨?_, ?_, by decide, by decide, by decide⟩
  · intro s t msg now u0 hu0
    unfold execCatch
    rw [updateTaskWith_comp, mapGet_updateTaskWith, if_pos rfl]
    dsimp only
    rw [hu0]
    exact ⟨_, rfl, rfl, rfl⟩
  · intro s tid now u0 hmem hu0
    rw [stopTask_running_some s tid now u0 hmem hu0]
    dsimp only
    rw [mapGet_updateTaskWith, if_pos rfl]
    dsimp only
    rw [hu0]
    exact ⟨_, rfl, rfl, rfl⟩

/-- Witness for C10 at concrete failing and cancelled tasks. -/
theorem sentinel_exit_codes_witness :
    (∃ u, mapGet (execCatch badAgentState badAgentTask "boom"
        2).tasks badAgentTask.id = some u ∧
      u.exitCode = some (-1) ∧ u.status = TaskStatus.error) ∧
    (∃ u, mapGet (stopTask demoStarted "A" 5).1.tasks "A" = some u ∧
      u.exitCode = some (-9) ∧ u.status = TaskStatus.error) :=
  ⟨sentinel_exit_codes.1 badAgentState badAgentTask "boom" 2
     badAgentTask (by decide),
   sentinel_exit_codes.2.1 demoStarted "A" 5 demoRunningTask (by decide)
     (by decide)⟩

end Hopper
